import Mathlib

/-
  Verification development for the polyomino-packing feasibility solver
  (source file src/src/bin/12.rs of the repository).

  The Rust source is shallowly embedded: pure functions become Lean
  functions, the `&mut Grid` state is threaded explicitly (every operation
  takes and returns a `Grid`), `u64` words of the occupancy bitset become
  naturals together with the well-formedness predicate `WFBits` (every
  word `< 2^64`, which is what the `u64` type guarantees in Rust), and the
  unbounded recursion of `can_fit_presents` becomes a fueled function
  returning `none` on fuel exhaustion; fuel sufficiency is proved
  separately (the recursion depth bound).
-/

set_option linter.unusedVariables false

namespace Day12

/-- Cell coordinate `(x, y)`: a pair of signed integers (`type Coord = (i32, i32)`). -/
abbrev Coord := Int × Int

/-- A polyomino shape: a list of cells relative to an implicit origin
(`type Shape = Vec<Coord>`). -/
abbrev Shape := List Coord

/-- A base present shape (`struct Present { cells: Vec<Coord> }`). -/
structure Present where
  cells : List Coord
deriving DecidableEq

/-- Minimum of an integer list, mirroring `iter().min()` over a nonempty
iterator (the source only calls it on nonempty lists; `0` stands in for the
impossible empty case). -/
def listMin : List Int → Int
  | [] => 0
  | x :: xs => xs.foldl min x

/-- Lexicographic comparison on coordinate pairs: the `Ord` instance of
`(i32, i32)` used by `sort_unstable`. -/
def coordLe (a b : Coord) : Bool :=
  decide (a.1 < b.1) || (decide (a.1 = b.1) && decide (a.2 ≤ b.2))

/-- Antisymmetry instance for the lexicographic coordinate order. -/
instance coordLeAnti : IsAntisymm Coord (fun a b => coordLe a b = true) :=
  ⟨fun a b h1 h2 => by
    simp only [coordLe, Bool.or_eq_true, Bool.and_eq_true,
      decide_eq_true_eq] at h1 h2
    have hx : a.1 = b.1 := by omega
    have hy : a.2 = b.2 := by omega
    exact Prod.ext hx hy⟩

instance coordLeTransInst : IsTrans Coord (fun a b => coordLe a b = true) :=
  ⟨fun a b c h1 h2 => by
    simp only [coordLe, Bool.or_eq_true, Bool.and_eq_true,
      decide_eq_true_eq] at h1 h2 ⊢
    omega⟩

instance coordLeTotalInst : IsTotal Coord (fun a b => coordLe a b = true) :=
  ⟨fun a b => by
    simp only [coordLe, Bool.or_eq_true, Bool.and_eq_true, decide_eq_true_eq]
    omega⟩

/-- `fn normalize(coords: &[Coord]) -> Shape`: translate so the minimum x and
minimum y become 0, then sort into a fixed deterministic (lexicographic)
order.  `sort_unstable` is modelled by insertion sort: the lexicographic
order is total and antisymmetric, so the sorted permutation of a list is
unique and every correct sort produces the same output. -/
def normalize (coords : List Coord) : Shape :=
  if coords.isEmpty then []
  else
    let min_x := listMin (coords.map Prod.fst)
    let min_y := listMin (coords.map Prod.snd)
    let shifted := coords.map fun c => (c.1 - min_x, c.2 - min_y)
    shifted.insertionSort fun a b => coordLe a b = true

/-- The table of 8 dihedral transforms, in the order of the source. -/
def transformations : List (Coord → Coord) :=
  [fun c => (c.1, c.2),
   fun c => (-c.2, c.1),
   fun c => (-c.1, -c.2),
   fun c => (c.2, -c.1),
   fun c => (-c.1, c.2),
   fun c => (c.2, c.1),
   fun c => (c.1, -c.2),
   fun c => (-c.2, -c.1)]

/-- One step of the variant deduplication: keep the accumulator if the
normalized image was already seen, otherwise push it at the end. -/
def dedupStep (acc : List Shape) (n : Shape) : List Shape :=
  if n ∈ acc then acc else acc ++ [n]

/-- `Present::rotations_and_flips`: normalize every transformed image and
keep the distinct results in first-seen order. -/
def Present.rotations_and_flips (p : Present) : List Shape :=
  transformations.foldl
    (fun acc t => dedupStep acc (normalize (p.cells.map t))) []

/-- `struct Region { width, height, required }`. -/
structure Region where
  width : Nat
  height : Nat
  required : List Nat
deriving DecidableEq

/-- `struct Grid`: word-packed occupancy bitset (each entry models one `u64`
word) plus the running counters. -/
structure Grid where
  width : Nat
  height : Nat
  occupied : List Nat
  total_cells : Nat
  filled_cells : Nat
deriving DecidableEq

namespace Grid

/-- `Grid::new`: all-zero bitset of `ceil(width*height / 64)` words. -/
def new (width height : Nat) : Grid :=
  let total_cells := width * height
  let num_words := (total_cells + 63) / 64
  { width := width, height := height, occupied := List.replicate num_words 0,
    total_cells := total_cells, filled_cells := 0 }

/-- `Grid::is_occupied`: `(occupied[idx/64] >> (idx%64)) & 1 == 1` at
`idx = y*width + x`. -/
def is_occupied (g : Grid) (x y : Nat) : Bool :=
  let idx := y * g.width + x
  let word := idx / 64
  let bit := idx % 64
  (g.occupied.getD word 0 >>> bit) &&& 1 == 1

/-- `Grid::set_cell`: set or clear one bit of the packed bitset.  The cleared
word is `w & !(1 << bit)`; the `u64` complement of `1 << bit` is the natural
number `2^64 - 1 - (1 <<< bit)`. -/
def set_cell (g : Grid) (x y : Nat) (occ : Bool) : Grid :=
  let idx := y * g.width + x
  let word := idx / 64
  let bit := idx % 64
  let w := g.occupied.getD word 0
  let w2 := if occ then w ||| (1 <<< bit) else w &&& (2 ^ 64 - 1 - (1 <<< bit))
  { g with occupied := g.occupied.set word w2 }

/-- `Grid::can_place`: every cell of the shape translated by `(x, y)` is
inside `[0, width) × [0, height)` and currently unoccupied. -/
def can_place (g : Grid) (shape : Shape) (x y : Int) : Bool :=
  shape.all fun c =>
    let nx := x + c.1
    let ny := y + c.2
    decide (0 ≤ nx) && decide (0 ≤ ny) &&
      decide (nx < (g.width : Int)) && decide (ny < (g.height : Int)) &&
      !(g.is_occupied nx.toNat ny.toNat)

/-- The cell-setting loop of `Grid::place` (before the counter update). -/
def placeCells (g : Grid) (shape : Shape) (x y : Int) : Grid :=
  shape.foldl (fun g2 c => g2.set_cell (x + c.1).toNat (y + c.2).toNat true) g

/-- `Grid::place`: set all covered cells, then add the shape's cell count to
`filled_cells`. -/
def place (g : Grid) (shape : Shape) (x y : Int) : Grid :=
  let g2 := g.placeCells shape x y
  { g2 with filled_cells := g2.filled_cells + shape.length }

/-- The cell-clearing loop of `Grid::remove` (before the counter update). -/
def removeCells (g : Grid) (shape : Shape) (x y : Int) : Grid :=
  shape.foldl (fun g2 c => g2.set_cell (x + c.1).toNat (y + c.2).toNat false) g

/-- `Grid::remove`: clear all covered cells, then subtract the shape's cell
count from `filled_cells`. -/
def remove (g : Grid) (shape : Shape) (x y : Int) : Grid :=
  let g2 := g.removeCells shape x y
  { g2 with filled_cells := g2.filled_cells - shape.length }

end Grid

/-- The copy count the source passes when advancing to the next piece type:
`pieces_to_place[piece_idx + 1].1` when it exists, `0` otherwise. -/
def nextRem (pieces_to_place : List (Nat × Nat)) (piece_idx : Nat) : Nat :=
  if piece_idx + 1 < pieces_to_place.length then
    (pieces_to_place.getD (piece_idx + 1) (0, 0)).2
  else 0

/-- The candidate enumeration order of the placement loops: `y` outer
(row-major), `x` inner, and each position paired with every variant in list
order. -/
def candList (height width : Nat) (shape_variants : List Shape) :
    List (Int × Int × Shape) :=
  (List.range height).flatMap fun y =>
    (List.range width).flatMap fun x =>
      shape_variants.map fun v => ((x : Int), (y : Int), v)

/-- The body of the three nested `for` loops of `can_fit_presents`, with the
recursive call abstracted as `rec` (the caller instantiates it with the
fueled `can_fit_presents`).  Each iteration places a candidate, recurses,
always removes the placement again, and short-circuits on success. -/
def tryCands (rec : Grid → Nat → Nat → Nat → Option (Bool × Grid))
    (pieces_to_place : List (Nat × Nat)) (piece_idx pieces_remaining
    total_cells_needed cells_per_piece : Nat) :
    Grid → List (Int × Int × Shape) → Option (Bool × Grid)
  | g, [] => some (false, g)
  | g, (x, y, v) :: rest =>
    if g.can_place v x y then
      let res :=
        if pieces_remaining == 1 then
          rec (g.place v x y) (piece_idx + 1) (nextRem pieces_to_place piece_idx)
            (total_cells_needed - cells_per_piece)
        else
          rec (g.place v x y) piece_idx (pieces_remaining - 1)
            (total_cells_needed - cells_per_piece)
      match res with
      | none => none
      | some (success, g2) =>
        let g3 := g2.remove v x y
        if success then some (true, g3)
        else tryCands rec pieces_to_place piece_idx pieces_remaining
          total_cells_needed cells_per_piece g3 rest
    else
      tryCands rec pieces_to_place piece_idx pieces_remaining
        total_cells_needed cells_per_piece g rest

/-- `fn can_fit_presents`: the backtracking search.  The extra fuel argument
makes the recursion structural; `none` means the fuel (recursion-depth
budget) ran out, and fuel sufficiency is proved separately. -/
def can_fit_presents : Nat → Grid → List (List Shape) → List (Nat × Nat) →
    Nat → Nat → Nat → Option (Bool × Grid)
  | 0, _, _, _, _, _, _ => none
  | fuel + 1, grid, variants_list, pieces_to_place, piece_idx,
      pieces_remaining, total_cells_needed =>
    if pieces_to_place.length ≤ piece_idx then some (true, grid)
    else if grid.total_cells - grid.filled_cells < total_cells_needed then
      some (false, grid)
    else
      let shape_idx := (pieces_to_place.getD piece_idx (0, 0)).1
      let shape_variants := variants_list.getD shape_idx []
      let cells_per_piece := (shape_variants.getD 0 []).length
      tryCands
        (fun g i r n => can_fit_presents fuel g variants_list pieces_to_place i r n)
        pieces_to_place piece_idx pieces_remaining total_cells_needed
        cells_per_piece grid (candList grid.height grid.width shape_variants)

/-- `pieces_to_place.sort_unstable_by_key(|&(_, cnt)| Reverse(cnt))`:
descending by copy count. -/
def sortPieces (l : List (Nat × Nat)) : List (Nat × Nat) :=
  l.insertionSort fun a b => b.2 ≤ a.2

/-- The per-region body of the `for region in regions` loop of `part_one`:
build the positive-count piece list, sort it, apply the area pre-check, and
otherwise run the search on a fresh grid.  The fuel is the proven recursion
depth bound: total required piece instances plus one for the initial call. -/
def region_counted (variants_list : List (List Shape)) (r : Region) : Bool :=
  let pieces_to_place :=
    sortPieces ((r.required.enum.filter fun p => 0 < p.2))
  let total_cells_needed :=
    (pieces_to_place.map fun p =>
      ((variants_list.getD p.1 []).getD 0 []).length * p.2).sum
  if r.width * r.height < total_cells_needed then false
  else
    let grid := Grid.new r.width r.height
    let initial_count := (pieces_to_place.headD (0, 0)).2
    let fuel := (pieces_to_place.map fun p => p.2).sum + 1
    match can_fit_presents fuel grid variants_list pieces_to_place 0
      initial_count total_cells_needed with
    | some (b, _) => b
    | none => false

/-- The aggregation of `part_one` after parsing: precompute the variant
lists once, then count the feasible regions. -/
def part_one_core (shapes : List Present) (regions : List Region) : Nat :=
  let variants_list := shapes.map Present.rotations_and_flips
  regions.countP fun r => region_counted variants_list r

end Day12

namespace Day12

/-! ## Bit-level view of the packed occupancy bitset -/

/-- The flat bit view of the packed bitset: bit `idx` of the grid, i.e. bit
`idx % 64` of word `idx / 64` (missing words read as `0`). -/
def Grid.bit (g : Grid) (idx : Nat) : Bool :=
  (g.occupied.getD (idx / 64) 0).testBit (idx % 64)

/-- Well-formedness inherited from the `u64` word type: every word `< 2^64`. -/
abbrev WFBits (g : Grid) : Prop := ∀ w ∈ g.occupied, w < 2 ^ 64

/-- The linear cell indices covered by placing shape `v` at `(x, y)` on a
grid of the given width (after the source's `as usize` casts). -/
def idxList (width : Nat) (v : Shape) (x y : Int) : List Nat :=
  v.map fun c => (y + c.2).toNat * width + (x + c.1).toNat

/-- The flat list of required piece instances of a piece list: each shape
index repeated by its copy count. -/
def flatSpec (pieces_to_place : List (Nat × Nat)) : List Nat :=
  pieces_to_place.flatMap fun p => List.replicate p.2 p.1

/-- The instances still to be placed by a `can_fit_presents` call at
`(piece_idx, pieces_remaining)`. -/
def specOf (pieces_to_place : List (Nat × Nat)) (piece_idx rem : Nat) :
    List Nat :=
  if pieces_to_place.length ≤ piece_idx then []
  else List.replicate rem (pieces_to_place.getD piece_idx (0, 0)).1 ++
    flatSpec (pieces_to_place.drop (piece_idx + 1))

/-- `variants_list[s][0].len()`: the cell count the source uses for the
pieces of shape index `s`. -/
def cppOf (variants_list : List (List Shape)) (s : Nat) : Nat :=
  ((variants_list.getD s []).getD 0 []).length

/-- Total cell demand of a list of piece instances. -/
def specCells (variants_list : List (List Shape)) (spec : List Nat) : Nat :=
  (spec.map fun s => cppOf variants_list s).sum

/-- A list of placements that can be executed in order: each `can_place`
holds on the grid produced by the earlier placements. -/
def validPack (g : Grid) : List (Shape × Int × Int) → Prop
  | [] => True
  | (v, x, y) :: t => g.can_place v x y = true ∧ validPack (g.place v x y) t

/-- The semantic feasibility of a list of piece instances: some choice of a
variant and a position for each instance forms a valid pack. -/
def Packable (g : Grid) (variants_list : List (List Shape))
    (spec : List Nat) : Prop :=
  ∃ pack : List (Shape × Int × Int),
    List.Forall₂ (fun s p => p.1 ∈ variants_list.getD s []) spec pack ∧
    validPack g pack

/-- All in-bounds cells of a `width × height` grid. -/
def allCells (width height : Nat) : List (Nat × Nat) :=
  (List.range height).flatMap fun y => (List.range width).map fun x => (x, y)

/-- Number of unoccupied in-bounds cells. -/
def freeCount (g : Grid) : Nat :=
  ((allCells g.width g.height).filter fun c => !(g.is_occupied c.1 c.2)).length

/-- The grid accounting invariant: `total_cells = width*height`, the word
array covers all cells, and `filled_cells` plus the number of free cells is
the total. -/
abbrev GInv (g : Grid) : Prop :=
  g.total_cells = g.width * g.height ∧
  g.total_cells ≤ 64 * g.occupied.length ∧
  g.filled_cells + freeCount g = g.total_cells

/-- Copy counts are positive: the current one (when a piece type is current)
and all later ones.  `part_one` guarantees this by filtering `cnt > 0`. -/
abbrev PiecesOK (pieces_to_place : List (Nat × Nat)) (piece_idx rem : Nat) :
    Prop :=
  (piece_idx < pieces_to_place.length → 1 ≤ rem) ∧
  ∀ p ∈ pieces_to_place.drop (piece_idx + 1), 1 ≤ p.2

/-- Shape of the variant lists produced by `rotations_and_flips` on parsed
presents: duplicate-free cells, uniform cell count, and both minima 0. -/
abbrev VarOK (variants_list : List (List Shape)) : Prop :=
  ∀ L ∈ variants_list, ∀ v ∈ L, v.Nodup ∧ v.length = (L.getD 0 []).length ∧
    (∃ c ∈ v, c.1 = 0) ∧ (∃ c ∈ v, c.2 = 0)

/-- Occupancy comparison used for antitonicity of `can_place`: same frame
and every set bit of the first grid is set in the second. -/
abbrev BitLe (g G : Grid) : Prop :=
  g.width = G.width ∧ g.height = G.height ∧
  g.occupied.length = G.occupied.length ∧
  ∀ idx, g.bit idx = true → G.bit idx = true

/-- Grid states reachable from `Grid::new` by precondition-respecting
`place`/`remove` calls, together with the stack of live placements
(`remove` is only applied to the most recent live placement, the last-in
first-out undo discipline of the search). -/
inductive ReachSt (w h : Nat) : Grid → List (Shape × Int × Int) → Prop where
  | base : ReachSt w h (Grid.new w h) []
  | place_step (g : Grid) (st : List (Shape × Int × Int)) (v : Shape)
      (x y : Int) : ReachSt w h g st → v.Nodup →
      g.can_place v x y = true → ReachSt w h (g.place v x y) ((v, x, y) :: st)
  | remove_step (g : Grid) (st : List (Shape × Int × Int)) (v : Shape)
      (x y : Int) : ReachSt w h g ((v, x, y) :: st) →
      ReachSt w h (g.remove v x y) st

/-- The in-bounds cell coordinates covered by placing `v` at `(x, y)` (after
the `as usize` casts). -/
def cellsNat (v : Shape) (x y : Int) : List (Nat × Nat) :=
  v.map fun c => ((x + c.1).toNat, (y + c.2).toNat)

/-- Execute a list of placements in order. -/
def placeAll (g : Grid) (pk : List (Shape × Int × Int)) : Grid :=
  pk.foldl (fun g2 p => g2.place p.1 p.2.1 p.2.2) g

/-- Whether a live placement covers the in-bounds cell `(x, y)`. -/
def covers (p : Shape × Int × Int) (x y : Nat) : Prop :=
  ∃ c ∈ p.1, p.2.1 + c.1 = (x : Int) ∧ p.2.2 + c.2 = (y : Int)

/-- Population count of one 64-bit word. -/
def wordPopCount (n : Nat) : Nat := (List.range 64).countP fun i => n.testBit i

/-- Population count of the whole occupancy bitset. -/
def bitsetPopcount (g : Grid) : Nat := (g.occupied.map wordPopCount).sum

theorem shift_and_beq (w b : Nat) : ((w >>> b) &&& 1 == 1) = w.testBit b := by
  rw [Nat.testBit_to_div_mod, Nat.shiftRight_eq_div_pow, Nat.and_one_is_mod]
  by_cases h : w / 2 ^ b % 2 = 1 <;> simp [h]

theorem is_occupied_eq_bit (g : Grid) (x y : Nat) :
    g.is_occupied x y = g.bit (y * g.width + x) := by
  simp only [Grid.is_occupied, Grid.bit, shift_and_beq]

theorem two_pow_compl (b : Nat) (hb : b < 64) :
    2 ^ 64 - 1 - (1 <<< b) = (2 ^ 64 - 1) ^^^ 2 ^ b := by
  rw [Nat.one_shiftLeft]
  interval_cases b <;> rfl

theorem testBit_compl (b i : Nat) (hb : b < 64) :
    (2 ^ 64 - 1 - (1 <<< b)).testBit i = (decide (i < 64) && !decide (i = b)) := by
  rw [two_pow_compl b hb, Nat.testBit_xor, Nat.testBit_two_pow_sub_one,
    Nat.testBit_two_pow]
  by_cases h1 : i < 64
  · by_cases h2 : i = b
    · subst h2; simp [h1]
    · have h3 : ¬(b = i) := fun e => h2 e.symm
      simp [h1, h2, h3]
  · have h2 : ¬(i = b) := by omega
    have h3 : ¬(b = i) := by omega
    simp [h1, h2, h3]

@[simp] theorem set_cell_width (g : Grid) (x y : Nat) (b : Bool) :
    (g.set_cell x y b).width = g.width := rfl

@[simp] theorem set_cell_height (g : Grid) (x y : Nat) (b : Bool) :
    (g.set_cell x y b).height = g.height := rfl

@[simp] theorem set_cell_total (g : Grid) (x y : Nat) (b : Bool) :
    (g.set_cell x y b).total_cells = g.total_cells := rfl

@[simp] theorem set_cell_filled (g : Grid) (x y : Nat) (b : Bool) :
    (g.set_cell x y b).filled_cells = g.filled_cells := rfl

@[simp] theorem set_cell_occupied_length (g : Grid) (x y : Nat) (b : Bool) :
    (g.set_cell x y b).occupied.length = g.occupied.length := by
  simp [Grid.set_cell]

theorem testBit_or_pow (w b i : Nat) :
    (w ||| (1 <<< b)).testBit i = (w.testBit i || decide (i = b)) := by
  rw [Nat.testBit_or, Nat.one_shiftLeft, Nat.testBit_two_pow]
  by_cases h : b = i
  · subst h; simp
  · have h2 : ¬(i = b) := fun e => h e.symm
    simp [h, h2]

theorem testBit_and_compl (w b i : Nat) (hb : b < 64) (hi : i < 64) :
    (w &&& (2 ^ 64 - 1 - (1 <<< b))).testBit i =
      (w.testBit i && !decide (i = b)) := by
  rw [Nat.testBit_and, testBit_compl b i hb]
  simp [hi]

theorem bit_set_cell (g : Grid) (x y : Nat) (b : Bool) (idx : Nat) :
    (g.set_cell x y b).bit idx =
      if (y * g.width + x) / 64 < g.occupied.length ∧ idx = y * g.width + x
      then b else g.bit idx := by
  have h64 : (0 : Nat) < 64 := by omega
  have hfne : ¬((false : Bool) = true) := by simp
  simp only [Grid.set_cell, Grid.bit]
  by_cases hr : (y * g.width + x) / 64 < g.occupied.length
  · by_cases hw : idx / 64 = (y * g.width + x) / 64
    · rw [List.getD_eq_getElem?_getD, hw, List.getElem?_set_self hr,
        Option.getD_some]
      by_cases he : idx = y * g.width + x
      · have hm : idx % 64 = (y * g.width + x) % 64 := by rw [he]
        rw [if_pos (And.intro hr he :
          (y * g.width + x) / 64 < g.occupied.length ∧ idx = y * g.width + x)]
        cases b
        · rw [if_neg hfne,
            testBit_and_compl _ _ _ (Nat.mod_lt _ h64) (Nat.mod_lt _ h64), hm]
          simp
        · rw [if_pos (rfl : (true : Bool) = true), testBit_or_pow, hm]
          simp
      · have hm : ¬(idx % 64 = (y * g.width + x) % 64) := by omega
        rw [if_neg (fun h : (y * g.width + x) / 64 < g.occupied.length ∧
          idx = y * g.width + x => he h.2)]
        cases b
        · rw [if_neg hfne,
            testBit_and_compl _ _ _ (Nat.mod_lt _ h64) (Nat.mod_lt _ h64)]
          simp [hm]
        · rw [if_pos (rfl : (true : Bool) = true), testBit_or_pow]
          simp [hm]
    · rw [List.getD_eq_getElem?_getD,
        List.getElem?_set_ne (fun e => hw e.symm), ← List.getD_eq_getElem?_getD,
        if_neg (fun h : (y * g.width + x) / 64 < g.occupied.length ∧
          idx = y * g.width + x => hw (by rw [h.2]))]
  · rw [List.set_eq_of_length_le (Nat.le_of_not_lt hr),
      if_neg (fun h : (y * g.width + x) / 64 < g.occupied.length ∧
        idx = y * g.width + x => hr h.1)]

theorem placeCells_nil (g : Grid) (x y : Int) : g.placeCells [] x y = g := rfl

theorem placeCells_cons (g : Grid) (c : Coord) (t : Shape) (x y : Int) :
    g.placeCells (c :: t) x y =
      (g.set_cell (x + c.1).toNat (y + c.2).toNat true).placeCells t x y := rfl

theorem removeCells_nil (g : Grid) (x y : Int) : g.removeCells [] x y = g := rfl

theorem removeCells_cons (g : Grid) (c : Coord) (t : Shape) (x y : Int) :
    g.removeCells (c :: t) x y =
      (g.set_cell (x + c.1).toNat (y + c.2).toNat false).removeCells t x y := rfl

theorem placeCells_fields (x y : Int) (v : Shape) : ∀ g : Grid,
    (g.placeCells v x y).width = g.width ∧
    (g.placeCells v x y).height = g.height ∧
    (g.placeCells v x y).total_cells = g.total_cells ∧
    (g.placeCells v x y).filled_cells = g.filled_cells ∧
    (g.placeCells v x y).occupied.length = g.occupied.length := by
  induction v with
  | nil => intro g; simp [placeCells_nil]
  | cons c t ih =>
    intro g
    rw [placeCells_cons]
    obtain ⟨i1, i2, i3, i4, i5⟩ := ih (g.set_cell (x + c.1).toNat (y + c.2).toNat true)
    simp_all

theorem removeCells_fields (x y : Int) (v : Shape) : ∀ g : Grid,
    (g.removeCells v x y).width = g.width ∧
    (g.removeCells v x y).height = g.height ∧
    (g.removeCells v x y).total_cells = g.total_cells ∧
    (g.removeCells v x y).filled_cells = g.filled_cells ∧
    (g.removeCells v x y).occupied.length = g.occupied.length := by
  induction v with
  | nil => intro g; simp [removeCells_nil]
  | cons c t ih =>
    intro g
    rw [removeCells_cons]
    obtain ⟨i1, i2, i3, i4, i5⟩ := ih (g.set_cell (x + c.1).toNat (y + c.2).toNat false)
    simp_all

@[simp] theorem place_width (g : Grid) (v : Shape) (x y : Int) :
    (g.place v x y).width = g.width := (placeCells_fields x y v g).1

@[simp] theorem place_height (g : Grid) (v : Shape) (x y : Int) :
    (g.place v x y).height = g.height := (placeCells_fields x y v g).2.1

@[simp] theorem place_total (g : Grid) (v : Shape) (x y : Int) :
    (g.place v x y).total_cells = g.total_cells := (placeCells_fields x y v g).2.2.1

@[simp] theorem place_filled (g : Grid) (v : Shape) (x y : Int) :
    (g.place v x y).filled_cells = g.filled_cells + v.length := by
  have h := (placeCells_fields x y v g).2.2.2.1
  simp [Grid.place, h]

@[simp] theorem place_occupied_length (g : Grid) (v : Shape) (x y : Int) :
    (g.place v x y).occupied.length = g.occupied.length :=
  (placeCells_fields x y v g).2.2.2.2

theorem place_occupied (g : Grid) (v : Shape) (x y : Int) :
    (g.place v x y).occupied = (g.placeCells v x y).occupied := rfl

theorem place_bit (g : Grid) (v : Shape) (x y : Int) (idx : Nat) :
    (g.place v x y).bit idx = (g.placeCells v x y).bit idx := rfl

@[simp] theorem remove_width (g : Grid) (v : Shape) (x y : Int) :
    (g.remove v x y).width = g.width := (removeCells_fields x y v g).1

@[simp] theorem remove_height (g : Grid) (v : Shape) (x y : Int) :
    (g.remove v x y).height = g.height := (removeCells_fields x y v g).2.1

@[simp] theorem remove_total (g : Grid) (v : Shape) (x y : Int) :
    (g.remove v x y).total_cells = g.total_cells := (removeCells_fields x y v g).2.2.1

@[simp] theorem remove_filled (g : Grid) (v : Shape) (x y : Int) :
    (g.remove v x y).filled_cells = g.filled_cells - v.length := by
  have h := (removeCells_fields x y v g).2.2.2.1
  simp [Grid.remove, h]

@[simp] theorem remove_occupied_length (g : Grid) (v : Shape) (x y : Int) :
    (g.remove v x y).occupied.length = g.occupied.length :=
  (removeCells_fields x y v g).2.2.2.2

theorem remove_bit (g : Grid) (v : Shape) (x y : Int) (idx : Nat) :
    (g.remove v x y).bit idx = (g.removeCells v x y).bit idx := rfl

theorem idxList_cons (width : Nat) (c : Coord) (t : Shape) (x y : Int) :
    idxList width (c :: t) x y =
      ((y + c.2).toNat * width + (x + c.1).toNat) :: idxList width t x y := rfl

theorem bit_placeCells (x y : Int) (v : Shape) : ∀ (g : Grid) (idx : Nat),
    (g.placeCells v x y).bit idx =
      (g.bit idx ||
        (decide (idx ∈ idxList g.width v x y) &&
          decide (idx / 64 < g.occupied.length))) := by
  induction v with
  | nil => intro g idx; simp [placeCells_nil, idxList]
  | cons c t ih =>
    intro g idx
    rw [placeCells_cons, ih, idxList_cons]
    simp only [set_cell_width, set_cell_occupied_length, bit_set_cell]
    by_cases h1 : idx = (y + c.2).toNat * g.width + (x + c.1).toNat
    · by_cases h2 :
        ((y + c.2).toNat * g.width + (x + c.1).toNat) / 64 < g.occupied.length
      · have h3 : idx / 64 < g.occupied.length := by rw [h1]; exact h2
        simp [h1, h2, h3]
      · have h3 : ¬(idx / 64 < g.occupied.length) := by rw [h1]; exact h2
        simp [h1, h2, h3]
    · by_cases h2 :
        ((y + c.2).toNat * g.width + (x + c.1).toNat) / 64 < g.occupied.length
      · simp [h1, h2]
      · simp [h1, h2]

theorem bit_removeCells (x y : Int) (v : Shape) : ∀ (g : Grid) (idx : Nat),
    (g.removeCells v x y).bit idx =
      (g.bit idx &&
        !(decide (idx ∈ idxList g.width v x y) &&
          decide (idx / 64 < g.occupied.length))) := by
  induction v with
  | nil => intro g idx; simp [removeCells_nil, idxList]
  | cons c t ih =>
    intro g idx
    rw [removeCells_cons, ih, idxList_cons]
    simp only [set_cell_width, set_cell_occupied_length, bit_set_cell]
    by_cases h1 : idx = (y + c.2).toNat * g.width + (x + c.1).toNat
    · by_cases h2 :
        ((y + c.2).toNat * g.width + (x + c.1).toNat) / 64 < g.occupied.length
      · have h3 : idx / 64 < g.occupied.length := by rw [h1]; exact h2
        simp [h1, h2, h3]
      · have h3 : ¬(idx / 64 < g.occupied.length) := by rw [h1]; exact h2
        simp [h1, h2, h3]
    · by_cases h2 :
        ((y + c.2).toNat * g.width + (x + c.1).toNat) / 64 < g.occupied.length
      · simp [h1, h2]
      · simp [h1, h2]

theorem getD_lt_two_pow {g : Grid} (hwf : WFBits g) (n : Nat) :
    g.occupied.getD n 0 < 2 ^ 64 := by
  by_cases h : n < g.occupied.length
  · rw [List.getD_eq_getElem?_getD, List.getElem?_eq_getElem h, Option.getD_some]
    exact hwf _ (List.getElem_mem h)
  · rw [List.getD_eq_getElem?_getD, List.getElem?_eq_none (by omega),
      Option.getD_none]
    exact Nat.pos_pow_of_pos 64 (by omega)

theorem WFBits_set_cell {g : Grid} (x y : Nat) (b : Bool) (hwf : WFBits g) :
    WFBits (g.set_cell x y b) := by
  intro w hw
  simp only [Grid.set_cell] at hw
  rcases List.mem_or_eq_of_mem_set hw with h | h
  · exact hwf _ h
  · subst h
    have hgd := getD_lt_two_pow hwf ((y * g.width + x) / 64)
    cases b
    · simp only [Bool.false_eq_true, if_false]
      exact Nat.lt_of_le_of_lt Nat.and_le_left hgd
    · simp only [if_true]
      have hsl : 1 <<< ((y * g.width + x) % 64) < 2 ^ 64 := by
        rw [Nat.one_shiftLeft]
        exact Nat.pow_lt_pow_right (by omega) (Nat.mod_lt _ (by omega))
      exact Nat.or_lt_two_pow hgd hsl

theorem WFBits_placeCells (x y : Int) (v : Shape) : ∀ {g : Grid},
    WFBits g → WFBits (g.placeCells v x y) := by
  induction v with
  | nil => intro g h; simpa [placeCells_nil] using h
  | cons c t ih =>
    intro g h
    rw [placeCells_cons]
    exact ih (WFBits_set_cell _ _ _ h)

theorem WFBits_removeCells (x y : Int) (v : Shape) : ∀ {g : Grid},
    WFBits g → WFBits (g.removeCells v x y) := by
  induction v with
  | nil => intro g h; simpa [removeCells_nil] using h
  | cons c t ih =>
    intro g h
    rw [removeCells_cons]
    exact ih (WFBits_set_cell _ _ _ h)

theorem WFBits_place {g : Grid} (v : Shape) (x y : Int) (hwf : WFBits g) :
    WFBits (g.place v x y) := WFBits_placeCells x y v hwf

theorem WFBits_remove {g : Grid} (v : Shape) (x y : Int) (hwf : WFBits g) :
    WFBits (g.remove v x y) := WFBits_removeCells x y v hwf

/-- Unfolded reading of `can_place`: all cells in bounds and unoccupied. -/
theorem can_place_iff (g : Grid) (v : Shape) (x y : Int) :
    g.can_place v x y = true ↔ ∀ c ∈ v, 0 ≤ x + c.1 ∧ 0 ≤ y + c.2 ∧
      x + c.1 < (g.width : Int) ∧ y + c.2 < (g.height : Int) ∧
      g.is_occupied (x + c.1).toNat (y + c.2).toNat = false := by
  simp [Grid.can_place, List.all_eq_true, Bool.and_eq_true, Bool.not_eq_true',
    and_assoc]

theorem bit_false_of_can_place {g : Grid} {v : Shape} {x y : Int}
    (hcp : g.can_place v x y = true) :
    ∀ idx ∈ idxList g.width v x y, g.bit idx = false := by
  intro idx hidx
  rcases List.mem_map.mp hidx with ⟨c, hc, rfl⟩
  have h := (can_place_iff g v x y).mp hcp c hc
  rw [← is_occupied_eq_bit]
  exact h.2.2.2.2

theorem grid_eq_of_fields {a b : Grid} (h1 : a.width = b.width)
    (h2 : a.height = b.height) (h3 : a.occupied = b.occupied)
    (h4 : a.total_cells = b.total_cells) (h5 : a.filled_cells = b.filled_cells) :
    a = b := by
  cases a; cases b; simp_all

theorem bit_eq_testBit {g : Grid} {n : Nat} (hn : n < g.occupied.length)
    (i : Nat) (hi : i < 64) :
    g.bit (64 * n + i) = (g.occupied.getD n 0).testBit i := by
  have hd : (64 * n + i) / 64 = n := by
    rw [Nat.mul_add_div (by omega), Nat.div_eq_of_lt hi, Nat.add_zero]
  have hm : (64 * n + i) % 64 = i := by
    rw [Nat.mul_add_mod, Nat.mod_eq_of_lt hi]
  rw [Grid.bit, hd, hm]

/-- The undo property of the grid: placing a shape where `can_place` holds and
then removing it restores the grid exactly (bitset words and counters). -/
theorem place_remove_eq (g : Grid) (v : Shape) (x y : Int)
    (hwf : WFBits g) (hcp : g.can_place v x y = true) :
    (g.place v x y).remove v x y = g := by
  have hb0 := bit_false_of_can_place hcp
  have hpf := placeCells_fields x y v g
  have hpw : (g.place v x y).width = g.width := place_width g v x y
  have hpl : (g.place v x y).occupied.length = g.occupied.length :=
    place_occupied_length g v x y
  -- every flat bit is restored
  have hbits : ∀ idx, ((g.place v x y).remove v x y).bit idx = g.bit idx := by
    intro idx
    rw [remove_bit, bit_removeCells, place_bit, bit_placeCells]
    simp only [hpw, hpl, place_occupied_length]
    by_cases h1 : idx ∈ idxList g.width v x y
    · by_cases h2 : idx / 64 < g.occupied.length
      · simp [h1, h2, hb0 idx h1]
      · simp [h1, h2]
    · simp [h1]
  -- all words are restored
  have hocc : ((g.place v x y).remove v x y).occupied = g.occupied := by
    have hlen : ((g.place v x y).remove v x y).occupied.length =
        g.occupied.length := by
      rw [remove_occupied_length, place_occupied_length]
    apply List.ext_getElem hlen
    intro n hn1 hn2
    apply Nat.eq_of_testBit_eq
    intro i
    by_cases hi : i < 64
    · have e1 := bit_eq_testBit hn1 i hi
      have e2 := bit_eq_testBit hn2 i hi
      rw [List.getD_eq_getElem?_getD, List.getElem?_eq_getElem hn1,
        Option.getD_some] at e1
      rw [List.getD_eq_getElem?_getD, List.getElem?_eq_getElem hn2,
        Option.getD_some] at e2
      rw [← e1, ← e2, hbits]
    · have hw1 : WFBits ((g.place v x y).remove v x y) :=
        WFBits_remove v x y (WFBits_place v x y hwf)
      have b1 : ((g.place v x y).remove v x y).occupied[n] < 2 ^ 64 :=
        hw1 _ (List.getElem_mem hn1)
      have b2 : g.occupied[n] < 2 ^ 64 := hwf _ (List.getElem_mem hn2)
      rw [Nat.testBit_lt_two_pow, Nat.testBit_lt_two_pow]
      · exact Nat.lt_of_lt_of_le b2
          (Nat.pow_le_pow_right (by omega) (by omega))
      · exact Nat.lt_of_lt_of_le b1
          (Nat.pow_le_pow_right (by omega) (by omega))
  refine grid_eq_of_fields ?_ ?_ hocc ?_ ?_
  · rw [remove_width, place_width]
  · rw [remove_height, place_height]
  · rw [remove_total, place_total]
  · rw [remove_filled, place_filled, Nat.add_sub_cancel]

/-- C1: if `can_place(shape, x, y)` holds, `place(shape, x, y)` followed by
`remove(shape, x, y)` leaves the occupancy bitset bit-identical and
`filled_cells` equal to their values immediately before the `place` call. -/
theorem c1_place_then_remove_restores (g : Grid) (v : Shape) (x y : Int)
    (hwf : WFBits g) (hcp : g.can_place v x y = true) :
    ((g.place v x y).remove v x y).occupied = g.occupied ∧
    ((g.place v x y).remove v x y).filled_cells = g.filled_cells := by
  rw [place_remove_eq g v x y hwf hcp]
  exact ⟨rfl, rfl⟩

theorem c1_place_then_remove_restores_witness :
    WFBits (Grid.new 2 2) ∧
    (Grid.new 2 2).can_place [((0 : Int), (0 : Int)), (1, 0)] 0 0 = true ∧
    (((Grid.new 2 2).place [((0 : Int), (0 : Int)), (1, 0)] 0 0).remove
        [((0 : Int), (0 : Int)), (1, 0)] 0 0).occupied = (Grid.new 2 2).occupied ∧
    (((Grid.new 2 2).place [((0 : Int), (0 : Int)), (1, 0)] 0 0).remove
        [((0 : Int), (0 : Int)), (1, 0)] 0 0).filled_cells =
      (Grid.new 2 2).filled_cells := by
  have h := c1_place_then_remove_restores (Grid.new 2 2)
    [((0 : Int), (0 : Int)), (1, 0)] 0 0 (by decide) (by decide)
  exact ⟨by decide, by decide, h.1, h.2⟩

/-- C2: `can_place(shape, x, y)` returns true iff every cell of the shape
translated by `(x, y)` lies within `[0, width) × [0, height)` and is
currently unoccupied (the embedding is a pure function of the grid, so the
call cannot mutate it). -/
theorem c2_can_place_characterization (g : Grid) (v : Shape) (x y : Int) :
    g.can_place v x y = true ↔ ∀ c ∈ v, 0 ≤ x + c.1 ∧ 0 ≤ y + c.2 ∧
      x + c.1 < (g.width : Int) ∧ y + c.2 < (g.height : Int) ∧
      g.is_occupied (x + c.1).toNat (y + c.2).toNat = false :=
  can_place_iff g v x y

/-! ## Canonicalization: listMin, normalize, rotations_and_flips -/

theorem foldl_min_le (xs : List Int) : ∀ x : Int,
    xs.foldl min x ≤ x ∧ ∀ a ∈ xs, xs.foldl min x ≤ a := by
  induction xs with
  | nil => intro x; simp
  | cons y ys ih =>
    intro x
    simp only [List.foldl_cons]
    obtain ⟨h1, h2⟩ := ih (min x y)
    refine ⟨le_trans h1 (min_le_left x y), ?_⟩
    intro a ha
    rcases List.mem_cons.mp ha with rfl | ha
    · exact le_trans h1 (min_le_right x a)
    · exact h2 a ha

theorem foldl_min_mem (xs : List Int) : ∀ x : Int,
    xs.foldl min x = x ∨ xs.foldl min x ∈ xs := by
  induction xs with
  | nil => intro x; left; rfl
  | cons y ys ih =>
    intro x
    simp only [List.foldl_cons]
    rcases ih (min x y) with h | h
    · rw [h]
      rcases le_total x y with hxy | hxy
      · left; exact min_eq_left hxy
      · right; rw [min_eq_right hxy]; exact List.mem_cons_self y ys
    · right; exact List.mem_cons_of_mem y h

theorem listMin_le (l : List Int) (a : Int) (ha : a ∈ l) : listMin l ≤ a := by
  cases l with
  | nil => cases ha
  | cons x xs =>
    simp only [listMin]
    rcases List.mem_cons.mp ha with rfl | ha
    · exact (foldl_min_le xs a).1
    · exact (foldl_min_le xs x).2 a ha

theorem listMin_mem (l : List Int) (hl : l ≠ []) : listMin l ∈ l := by
  cases l with
  | nil => exact absurd rfl hl
  | cons x xs =>
    simp only [listMin]
    rcases foldl_min_mem xs x with h | h
    · rw [h]; exact List.mem_cons_self x xs
    · exact List.mem_cons_of_mem x h

theorem listMin_perm {l l2 : List Int} (h : l.Perm l2) : listMin l = listMin l2 := by
  by_cases hl : l = []
  · subst hl
    rw [(h.symm.eq_nil : l2 = [])]
  · have hl2 : l2 ≠ [] := fun e => hl ((e ▸ h).eq_nil)
    apply le_antisymm
    · exact listMin_le l _ (h.mem_iff.mpr (listMin_mem l2 hl2))
    · exact listMin_le l2 _ (h.mem_iff.mp (listMin_mem l hl))

theorem min_sub_const (x y k : Int) : min (x - k) (y - k) = min x y - k := by
  rcases le_total x y with h | h
  · rw [min_eq_left h, min_eq_left (by omega : x - k ≤ y - k)]
  · rw [min_eq_right h, min_eq_right (by omega : y - k ≤ x - k)]

theorem foldl_min_map_sub (k : Int) (xs : List Int) : ∀ x : Int,
    (xs.map fun a => a - k).foldl min (x - k) = xs.foldl min x - k := by
  induction xs with
  | nil => intro x; rfl
  | cons y ys ih =>
    intro x
    simp only [List.map_cons, List.foldl_cons]
    rw [min_sub_const, ih]

theorem listMin_map_sub (k : Int) (l : List Int) (hl : l ≠ []) :
    listMin (l.map fun a => a - k) = listMin l - k := by
  cases l with
  | nil => exact absurd rfl hl
  | cons x xs =>
    simp only [List.map_cons, listMin]
    exact foldl_min_map_sub k xs x

theorem coordLe_trans (a b c : Coord) (h1 : coordLe a b = true)
    (h2 : coordLe b c = true) : coordLe a c = true := by
  simp only [coordLe, Bool.or_eq_true, Bool.and_eq_true, decide_eq_true_eq] at h1 h2 ⊢
  omega

theorem coordLe_total (a b : Coord) : (coordLe a b || coordLe b a) = true := by
  simp only [coordLe, Bool.or_eq_true, Bool.and_eq_true, decide_eq_true_eq]
  omega

theorem coordLe_antisymm (a b : Coord) (h1 : coordLe a b = true)
    (h2 : coordLe b a = true) : a = b := by
  simp only [coordLe, Bool.or_eq_true, Bool.and_eq_true, decide_eq_true_eq] at h1 h2
  have hx : a.1 = b.1 := by omega
  have hy : a.2 = b.2 := by omega
  exact Prod.ext hx hy

theorem normalize_nil : normalize [] = [] := rfl

theorem normalize_eq_sort (l : List Coord) (hl : l ≠ []) :
    normalize l = (l.map fun c => (c.1 - listMin (l.map Prod.fst),
      c.2 - listMin (l.map Prod.snd))).insertionSort
        (fun a b => coordLe a b = true) := by
  rw [normalize, if_neg (by simp [hl])]

theorem normalize_perm (l : List Coord) (hl : l ≠ []) :
    (normalize l).Perm (l.map fun c => (c.1 - listMin (l.map Prod.fst),
      c.2 - listMin (l.map Prod.snd))) := by
  rw [normalize_eq_sort l hl]
  exact List.perm_insertionSort _ _

theorem normalize_length (l : List Coord) : (normalize l).length = l.length := by
  by_cases hl : l = []
  · subst hl; rfl
  · rw [normalize_eq_sort l hl, List.length_insertionSort, List.length_map]

theorem normalize_sorted (l : List Coord) :
    List.Pairwise (fun a b => coordLe a b = true) (normalize l) := by
  by_cases hl : l = []
  · subst hl; simp [normalize_nil]
  · rw [normalize_eq_sort l hl]
    exact List.sorted_insertionSort _ _

theorem min_add_const (x y k : Int) : min (x + k) (y + k) = min x y + k := by
  rcases le_total x y with h | h
  · rw [min_eq_left h, min_eq_left (by omega : x + k ≤ y + k)]
  · rw [min_eq_right h, min_eq_right (by omega : y + k ≤ x + k)]

theorem foldl_min_map_add (k : Int) (xs : List Int) : ∀ x : Int,
    (xs.map fun a => a + k).foldl min (x + k) = xs.foldl min x + k := by
  induction xs with
  | nil => intro x; rfl
  | cons y ys ih =>
    intro x
    simp only [List.map_cons, List.foldl_cons]
    rw [min_add_const, ih]

theorem listMin_map_add (k : Int) (l : List Int) (hl : l ≠ []) :
    listMin (l.map fun a => a + k) = listMin l + k := by
  cases l with
  | nil => exact absurd rfl hl
  | cons x xs =>
    simp only [List.map_cons, listMin]
    exact foldl_min_map_add k xs x

theorem map_fst_shift (l : List Coord) (mx my : Int) :
    ((l.map fun c => (c.1 - mx, c.2 - my)).map Prod.fst) =
      (l.map Prod.fst).map fun a => a - mx := by
  rw [List.map_map, List.map_map]
  congr 1

theorem map_snd_shift (l : List Coord) (mx my : Int) :
    ((l.map fun c => (c.1 - mx, c.2 - my)).map Prod.snd) =
      (l.map Prod.snd).map fun a => a - my := by
  rw [List.map_map, List.map_map]
  congr 1

theorem normalize_min_fst (l : List Coord) (hl : l ≠ []) :
    listMin ((normalize l).map Prod.fst) = 0 := by
  have hp := (normalize_perm l hl).map Prod.fst
  rw [listMin_perm hp, map_fst_shift,
    listMin_map_sub _ _ (by simpa using hl)]
  omega

theorem normalize_min_snd (l : List Coord) (hl : l ≠ []) :
    listMin ((normalize l).map Prod.snd) = 0 := by
  have hp := (normalize_perm l hl).map Prod.snd
  rw [listMin_perm hp, map_snd_shift,
    listMin_map_sub _ _ (by simpa using hl)]
  omega

theorem map_shift_cancel (l : List Coord) (mx my : Int) :
    ((l.map fun c => (c.1 - mx, c.2 - my)).map fun c => (c.1 + mx, c.2 + my))
      = l := by
  rw [List.map_map]
  have hf : ((fun c : Coord => (c.1 + mx, c.2 + my)) ∘
      fun c : Coord => (c.1 - mx, c.2 - my)) = id := by
    funext c
    have h1 : c.1 - mx + mx = c.1 := by omega
    have h2 : c.2 - my + my = c.2 := by omega
    simp [Function.comp, h1, h2]
  rw [hf, List.map_id]

theorem normalize_translate (a : List Coord) (d : Coord) (ha : a ≠ []) :
    normalize (a.map fun c => (c.1 + d.1, c.2 + d.2)) = normalize a := by
  have hb : (a.map fun c => (c.1 + d.1, c.2 + d.2)) ≠ [] := by simpa using ha
  rw [normalize_eq_sort _ hb, normalize_eq_sort a ha]
  have hmx : listMin ((a.map fun c => (c.1 + d.1, c.2 + d.2)).map Prod.fst) =
      listMin (a.map Prod.fst) + d.1 := by
    have he : ((a.map fun c => (c.1 + d.1, c.2 + d.2)).map Prod.fst) =
        (a.map Prod.fst).map fun v => v + d.1 := by
      rw [List.map_map, List.map_map]
      congr 1
    rw [he, listMin_map_add _ _ (by simpa using ha)]
  have hmy : listMin ((a.map fun c => (c.1 + d.1, c.2 + d.2)).map Prod.snd) =
      listMin (a.map Prod.snd) + d.2 := by
    have he : ((a.map fun c => (c.1 + d.1, c.2 + d.2)).map Prod.snd) =
        (a.map Prod.snd).map fun v => v + d.2 := by
      rw [List.map_map, List.map_map]
      congr 1
    rw [he, listMin_map_add _ _ (by simpa using ha)]
  rw [hmx, hmy]
  congr 1
  rw [List.map_map]
  congr 1
  funext c
  simp only [Function.comp_apply, Prod.mk.injEq]
  constructor
  · omega
  · omega

theorem normalize_perm_congr {a b : List Coord} (h : a.Perm b) :
    normalize a = normalize b := by
  by_cases ha : a = []
  · subst ha
    rw [← h.nil_eq]
  · have hb : b ≠ [] := fun e => ha ((e ▸ h).eq_nil)
    haveI := coordLeAnti
    have hmx : listMin (a.map Prod.fst) = listMin (b.map Prod.fst) :=
      listMin_perm (h.map _)
    have hmy : listMin (a.map Prod.snd) = listMin (b.map Prod.snd) :=
      listMin_perm (h.map _)
    rw [normalize_eq_sort a ha, normalize_eq_sort b hb]
    refine @List.eq_of_perm_of_sorted _ (fun u v => coordLe u v = true)
      coordLeAnti _ _ ?_ ?_ ?_
    · refine ((List.perm_insertionSort _ _).trans ?_).trans
        (List.perm_insertionSort _ _).symm
      rw [hmx, hmy]
      exact h.map _
    · exact List.sorted_insertionSort _ _
    · exact List.sorted_insertionSort _ _

theorem normalize_eq_iff (a b : List Coord) (ha : a ≠ []) (hb : b ≠ []) :
    normalize a = normalize b ↔
      ∃ d : Coord, b.Perm (a.map fun c => (c.1 + d.1, c.2 + d.2)) := by
  constructor
  · intro h
    refine ⟨(listMin (b.map Prod.fst) - listMin (a.map Prod.fst),
             listMin (b.map Prod.snd) - listMin (a.map Prod.snd)), ?_⟩
    have pa := normalize_perm a ha
    have pb := normalize_perm b hb
    have hs := pb.symm.trans (h ▸ pa)
    have hm := hs.map (fun c : Coord =>
      (c.1 + listMin (b.map Prod.fst), c.2 + listMin (b.map Prod.snd)))
    rw [map_shift_cancel] at hm
    have hr : ((a.map fun c => (c.1 - listMin (a.map Prod.fst),
        c.2 - listMin (a.map Prod.snd))).map fun c : Coord =>
          (c.1 + listMin (b.map Prod.fst), c.2 + listMin (b.map Prod.snd))) =
        a.map fun c =>
          (c.1 + (listMin (b.map Prod.fst) - listMin (a.map Prod.fst)),
           c.2 + (listMin (b.map Prod.snd) - listMin (a.map Prod.snd))) := by
      rw [List.map_map]
      congr 1
      funext c
      simp only [Function.comp_apply, Prod.mk.injEq]
      constructor
      · omega
      · omega
    rw [hr] at hm
    exact hm
  · rintro ⟨d, hp⟩
    rw [normalize_perm_congr hp, normalize_translate a d ha]

/-- C8: for every non-empty coordinate list, `normalize` keeps the length,
brings the minimum x and minimum y to 0, sorts into the fixed lexicographic
order, is (as a multiset) the translation of the input by
`(-min_x, -min_y)`, and two shapes have equal canonical forms iff they are
translates of the same cell multiset. -/
theorem c8_normalize_canonical_form (l : List Coord) (hl : l ≠ []) :
    (normalize l).length = l.length ∧
    listMin ((normalize l).map Prod.fst) = 0 ∧
    listMin ((normalize l).map Prod.snd) = 0 ∧
    List.Pairwise (fun a b => coordLe a b = true) (normalize l) ∧
    (normalize l).Perm (l.map fun c => (c.1 - listMin (l.map Prod.fst),
      c.2 - listMin (l.map Prod.snd))) ∧
    ∀ b : List Coord, b ≠ [] →
      (normalize l = normalize b ↔
        ∃ d : Coord, b.Perm (l.map fun c => (c.1 + d.1, c.2 + d.2))) :=
  ⟨normalize_length l, normalize_min_fst l hl, normalize_min_snd l hl,
   normalize_sorted l, normalize_perm l hl,
   fun b hb => normalize_eq_iff l b hl hb⟩

theorem c8_normalize_canonical_form_witness :
    ([((1 : Int), (2 : Int)), (0, 3)] : List Coord) ≠ [] ∧
    (normalize [((1 : Int), (2 : Int)), (0, 3)]).length = 2 ∧
    normalize [((1 : Int), (2 : Int)), (0, 3)] =
      normalize [((5 : Int), (7 : Int)), (4, 8)] := by
  have h := c8_normalize_canonical_form [((1 : Int), (2 : Int)), (0, 3)]
    (by decide)
  refine ⟨by decide, ?_, ?_⟩
  · rw [h.1]; decide
  · exact (h.2.2.2.2.2 [((5 : Int), (7 : Int)), (4, 8)] (by decide)).mpr
      ⟨(4, 5), by decide⟩


theorem dedup_foldl_mem (f : (Coord → Coord) → Shape) :
    ∀ (ts : List (Coord → Coord)) (acc : List Shape) (v : Shape),
      (v ∈ ts.foldl (fun a t => dedupStep a (f t)) acc ↔
        v ∈ acc ∨ ∃ t ∈ ts, v = f t) := by
  intro ts
  induction ts with
  | nil => intro acc v; simp
  | cons t ts ih =>
    intro acc v
    simp only [List.foldl_cons]
    rw [ih]
    simp only [dedupStep]
    by_cases h : f t ∈ acc
    · simp only [h, if_true]
      constructor
      · rintro (hv | hv)
        · exact Or.inl hv
        · right; rcases hv with ⟨u, hu, rfl⟩
          exact ⟨u, List.mem_cons_of_mem t hu, rfl⟩
      · rintro (hv | ⟨u, hu, rfl⟩)
        · exact Or.inl hv
        · rcases List.mem_cons.mp hu with rfl | hu
          · exact Or.inl h
          · exact Or.inr ⟨u, hu, rfl⟩
    · simp only [h, if_false]
      constructor
      · rintro (hv | hv)
        · rcases List.mem_append.mp hv with hv | hv
          · exact Or.inl hv
          · right
            refine ⟨t, List.mem_cons_self t ts, ?_⟩
            simpa using hv
        · right; rcases hv with ⟨u, hu, rfl⟩
          exact ⟨u, List.mem_cons_of_mem t hu, rfl⟩
      · rintro (hv | ⟨u, hu, rfl⟩)
        · exact Or.inl (List.mem_append.mpr (Or.inl hv))
        · rcases List.mem_cons.mp hu with rfl | hu
          · exact Or.inl (List.mem_append.mpr (Or.inr (by simp)))
          · exact Or.inr ⟨u, hu, rfl⟩

theorem dedup_foldl_nodup (f : (Coord → Coord) → Shape) :
    ∀ (ts : List (Coord → Coord)) (acc : List Shape), acc.Nodup →
      (ts.foldl (fun a t => dedupStep a (f t)) acc).Nodup := by
  intro ts
  induction ts with
  | nil => intro acc h; simpa using h
  | cons t ts ih =>
    intro acc h
    simp only [List.foldl_cons, dedupStep]
    by_cases hm : f t ∈ acc
    · simp only [hm, if_true]; exact ih acc h
    · simp only [hm, if_false]
      refine ih _ ?_
      simp [List.nodup_append, h, hm]

theorem dedup_foldl_length (f : (Coord → Coord) → Shape) :
    ∀ (ts : List (Coord → Coord)) (acc : List Shape),
      (ts.foldl (fun a t => dedupStep a (f t)) acc).length ≤
        acc.length + ts.length := by
  intro ts
  induction ts with
  | nil => intro acc; simp
  | cons t ts ih =>
    intro acc
    simp only [List.foldl_cons, List.length_cons, dedupStep]
    by_cases hm : f t ∈ acc
    · simp only [hm, if_true]
      exact Nat.le_trans (ih acc) (by omega)
    · simp only [hm, if_false]
      refine Nat.le_trans (ih _) ?_
      simp only [List.length_append, List.length_cons, List.length_nil]
      omega

theorem rotations_and_flips_mem (p : Present) (v : Shape) :
    v ∈ p.rotations_and_flips ↔
      ∃ t ∈ transformations, v = normalize (p.cells.map t) := by
  have h := dedup_foldl_mem (fun t => normalize (p.cells.map t))
    transformations [] v
  simp only [List.not_mem_nil, false_or] at h
  exact h

theorem rotations_and_flips_nodup (p : Present) :
    p.rotations_and_flips.Nodup :=
  dedup_foldl_nodup (fun t => normalize (p.cells.map t)) transformations []
    List.nodup_nil

theorem rotations_and_flips_length_le (p : Present) :
    p.rotations_and_flips.length ≤ 8 := by
  have h := dedup_foldl_length (fun t => normalize (p.cells.map t))
    transformations []
  simpa using h

theorem rotations_and_flips_ne_nil (p : Present) :
    p.rotations_and_flips ≠ [] := by
  have h : normalize (p.cells.map fun c => (c.1, c.2)) ∈
      p.rotations_and_flips := by
    rw [rotations_and_flips_mem]
    exact ⟨fun c => (c.1, c.2), by simp [transformations], rfl⟩
  exact List.ne_nil_of_mem h

/-- C6: for every non-empty base shape, `rotations_and_flips` returns a
pairwise-distinct list of between 1 and 8 canonical forms, drawn (in
first-seen order) from the normalized images under the 8 dihedral
transforms; a single cell and a 2x2 square each yield exactly one variant. -/
theorem c6_rotations_and_flips_variants :
    (∀ p : Present, p.cells ≠ [] →
      p.rotations_and_flips.Nodup ∧
      1 ≤ p.rotations_and_flips.length ∧
      p.rotations_and_flips.length ≤ 8 ∧
      ∀ v, v ∈ p.rotations_and_flips ↔
        ∃ t ∈ transformations, v = normalize (p.cells.map t)) ∧
    Present.rotations_and_flips ⟨[(0, 0)]⟩ = [[(0, 0)]] ∧
    Present.rotations_and_flips ⟨[(0, 0), (1, 0), (0, 1), (1, 1)]⟩ =
      [[(0, 0), (0, 1), (1, 0), (1, 1)]] := by
  refine ⟨fun p hp => ⟨rotations_and_flips_nodup p, ?_,
    rotations_and_flips_length_le p, fun v => rotations_and_flips_mem p v⟩,
    by decide, by decide⟩
  have hne := rotations_and_flips_ne_nil p
  cases h : p.rotations_and_flips with
  | nil => exact absurd h hne
  | cons a t => simp [h]

theorem c6_rotations_and_flips_variants_witness :
    (Present.mk [((0 : Int), (0 : Int)), (0, 1), (0, 2), (1, 2)]).cells ≠ [] ∧
    (Present.mk [((0 : Int), (0 : Int)), (0, 1), (0, 2),
      (1, 2)]).rotations_and_flips.Nodup ∧
    1 ≤ (Present.mk [((0 : Int), (0 : Int)), (0, 1), (0, 2),
      (1, 2)]).rotations_and_flips.length := by
  have h := c6_rotations_and_flips_variants.1
    (Present.mk [((0 : Int), (0 : Int)), (0, 1), (0, 2), (1, 2)]) (by decide)
  exact ⟨by decide, h.1, h.2.1⟩

/-! ## The backtracking search: fuel monotonicity, sufficiency, frame -/

theorem can_fit_zero (g : Grid) (vl : List (List Shape))
    (P : List (Nat × Nat)) (pi re ne : Nat) :
    can_fit_presents 0 g vl P pi re ne = none := rfl

theorem can_fit_succ (fuel : Nat) (g : Grid) (vl : List (List Shape))
    (P : List (Nat × Nat)) (pi re ne : Nat) :
    can_fit_presents (fuel + 1) g vl P pi re ne =
      if P.length ≤ pi then some (true, g)
      else if g.total_cells - g.filled_cells < ne then some (false, g)
      else
        tryCands (fun g2 i r n => can_fit_presents fuel g2 vl P i r n)
          P pi re ne (cppOf vl (P.getD pi (0, 0)).1) g
          (candList g.height g.width (vl.getD (P.getD pi (0, 0)).1 [])) := rfl

theorem tryCands_nil (rec : Grid → Nat → Nat → Nat → Option (Bool × Grid))
    (P : List (Nat × Nat)) (pi re ne cp : Nat) (g : Grid) :
    tryCands rec P pi re ne cp g [] = some (false, g) := rfl

theorem tryCands_cons (rec : Grid → Nat → Nat → Nat → Option (Bool × Grid))
    (P : List (Nat × Nat)) (pi re ne cp : Nat) (g : Grid) (x y : Int)
    (v : Shape) (rest : List (Int × Int × Shape)) :
    tryCands rec P pi re ne cp g ((x, y, v) :: rest) =
      if g.can_place v x y then
        match (if re == 1 then
            rec (g.place v x y) (pi + 1) (nextRem P pi) (ne - cp)
          else rec (g.place v x y) pi (re - 1) (ne - cp)) with
        | none => none
        | some (success, g2) =>
          if success then some (true, g2.remove v x y)
          else tryCands rec P pi re ne cp (g2.remove v x y) rest
      else tryCands rec P pi re ne cp g rest := rfl

theorem tryCands_mono {rec rec2 : Grid → Nat → Nat → Nat → Option (Bool × Grid)}
    (P : List (Nat × Nat)) (pi re ne cp : Nat)
    (hrec : ∀ g i r n out, rec g i r n = some out → rec2 g i r n = some out) :
    ∀ (cands : List (Int × Int × Shape)) (g : Grid) (out : Bool × Grid),
      tryCands rec P pi re ne cp g cands = some out →
      tryCands rec2 P pi re ne cp g cands = some out := by
  intro cands
  induction cands with
  | nil => intro g out h; simpa [tryCands_nil] using h
  | cons c rest ih =>
    rcases c with ⟨x, y, v⟩
    intro g out h
    rw [tryCands_cons] at h
    rw [tryCands_cons]
    by_cases hcp : g.can_place v x y
    · rw [if_pos hcp] at h ⊢
      by_cases hre : (re == 1) = true
      · rw [if_pos hre] at h ⊢
        cases hres : rec (g.place v x y) (pi + 1) (nextRem P pi) (ne - cp) with
        | none => rw [hres] at h; cases h
        | some r =>
          rcases r with ⟨succ, g2⟩
          rw [hres] at h
          rw [hrec _ _ _ _ _ hres]
          cases succ
          · simp only [Bool.false_eq_true, if_false] at h ⊢
            exact ih _ out h
          · simpa using h
      · rw [if_neg hre] at h ⊢
        cases hres : rec (g.place v x y) pi (re - 1) (ne - cp) with
        | none => rw [hres] at h; cases h
        | some r =>
          rcases r with ⟨succ, g2⟩
          rw [hres] at h
          rw [hrec _ _ _ _ _ hres]
          cases succ
          · simp only [Bool.false_eq_true, if_false] at h ⊢
            exact ih _ out h
          · simpa using h
    · rw [if_neg hcp] at h ⊢
      exact ih _ out h

theorem can_fit_mono : ∀ (fuel : Nat) (g : Grid) (vl : List (List Shape))
    (P : List (Nat × Nat)) (pi re ne : Nat) (out : Bool × Grid),
    can_fit_presents fuel g vl P pi re ne = some out →
    can_fit_presents (fuel + 1) g vl P pi re ne = some out := by
  intro fuel
  induction fuel with
  | zero =>
    intro g vl P pi re ne out h
    rw [can_fit_zero] at h
    cases h
  | succ fuel ih =>
    intro g vl P pi re ne out h
    rw [can_fit_succ] at h
    rw [can_fit_succ]
    by_cases h1 : P.length ≤ pi
    · rw [if_pos h1] at h ⊢; exact h
    · rw [if_neg h1] at h ⊢
      by_cases h2 : g.total_cells - g.filled_cells < ne
      · rw [if_pos h2] at h ⊢; exact h
      · rw [if_neg h2] at h ⊢
        exact tryCands_mono P pi re ne _
          (fun g2 i r n out2 hh => ih g2 vl P i r n out2 hh) _ g out h

theorem can_fit_fuel_le {f1 f2 : Nat} (hle : f1 ≤ f2) (g : Grid)
    (vl : List (List Shape)) (P : List (Nat × Nat)) (pi re ne : Nat)
    (out : Bool × Grid) (h : can_fit_presents f1 g vl P pi re ne = some out) :
    can_fit_presents f2 g vl P pi re ne = some out := by
  induction f2 with
  | zero =>
    have : f1 = 0 := by omega
    subst this
    exact h
  | succ f2 ih =>
    by_cases he : f1 = f2 + 1
    · subst he; exact h
    · exact can_fit_mono f2 g vl P pi re ne out (ih (by omega))

theorem flatSpec_nil : flatSpec [] = [] := rfl

theorem flatSpec_cons (p : Nat × Nat) (t : List (Nat × Nat)) :
    flatSpec (p :: t) = List.replicate p.2 p.1 ++ flatSpec t := by
  simp [flatSpec]

theorem getD_eq_getElem_of_lt {l : List (Nat × Nat)} {n : Nat}
    (h : n < l.length) : l.getD n (0, 0) = l[n] := by
  rw [List.getD_eq_getElem?_getD, List.getElem?_eq_getElem h, Option.getD_some]

theorem specOf_base {P : List (Nat × Nat)} {pi : Nat} (h : P.length ≤ pi)
    (re : Nat) : specOf P pi re = [] := by
  simp [specOf, h]

theorem specOf_step_same {P : List (Nat × Nat)} {pi re : Nat}
    (hpi : pi < P.length) (hre : 2 ≤ re) :
    specOf P pi re = (P.getD pi (0, 0)).1 :: specOf P pi (re - 1) := by
  have h2 : ¬(P.length ≤ pi) := by omega
  rw [specOf, if_neg h2, specOf, if_neg h2]
  have : re = (re - 1) + 1 := by omega
  rw [this, List.replicate_succ]
  simp

theorem specOf_step_next {P : List (Nat × Nat)} {pi : Nat}
    (hpi : pi < P.length) :
    specOf P pi 1 = (P.getD pi (0, 0)).1 :: specOf P (pi + 1) (nextRem P pi) := by
  have h2 : ¬(P.length ≤ pi) := by omega
  rw [specOf, if_neg h2]
  by_cases h3 : pi + 1 < P.length
  · have h4 : ¬(P.length ≤ pi + 1) := by omega
    rw [specOf, if_neg h4]
    simp only [nextRem]
    rw [if_pos h3]
    have hd : P.drop (pi + 1) = P[pi + 1] :: P.drop (pi + 2) :=
      List.drop_eq_getElem_cons h3
    rw [hd, flatSpec_cons, getD_eq_getElem_of_lt h3]
    simp
  · have h4 : P.length ≤ pi + 1 := by omega
    rw [specOf, if_pos h4]
    have hd : P.drop (pi + 1) = [] := List.drop_eq_nil_of_le h4
    rw [hd, flatSpec_nil]
    simp

theorem nextRem_pos {P : List (Nat × Nat)} {pi : Nat}
    (hP : ∀ p ∈ P.drop (pi + 1), 1 ≤ p.2) (h3 : pi + 1 < P.length) :
    1 ≤ nextRem P pi := by
  simp only [nextRem]
  rw [if_pos h3, getD_eq_getElem_of_lt h3]
  apply hP
  rw [List.drop_eq_getElem_cons h3]
  exact List.mem_cons_self _ _

theorem PiecesOK_next {P : List (Nat × Nat)} {pi re : Nat}
    (h : PiecesOK P pi re) : PiecesOK P (pi + 1) (nextRem P pi) := by
  refine ⟨fun h3 => nextRem_pos h.2 h3, ?_⟩
  intro p hp
  apply h.2
  have hd : P.drop (pi + 1 + 1) = (P.drop (pi + 1)).drop 1 := by
    rw [List.drop_drop]
  rw [hd] at hp
  exact List.mem_of_mem_drop hp

theorem PiecesOK_same {P : List (Nat × Nat)} {pi re : Nat}
    (h : PiecesOK P pi re) (hre : 2 ≤ re) : PiecesOK P pi (re - 1) :=
  ⟨fun _ => by omega, h.2⟩

theorem tryCands_total {rec : Grid → Nat → Nat → Nat → Option (Bool × Grid)}
    (P : List (Nat × Nat)) (pi re ne cp : Nat)
    (hrec1 : (re == 1) = true →
      ∀ g2 : Grid, ∃ o, rec g2 (pi + 1) (nextRem P pi) (ne - cp) = some o)
    (hrec2 : ¬((re == 1) = true) →
      ∀ g2 : Grid, ∃ o, rec g2 pi (re - 1) (ne - cp) = some o) :
    ∀ (cands : List (Int × Int × Shape)) (g : Grid),
      ∃ out, tryCands rec P pi re ne cp g cands = some out := by
  intro cands
  induction cands with
  | nil => intro g; exact ⟨(false, g), rfl⟩
  | cons c rest ih =>
    rcases c with ⟨x, y, v⟩
    intro g
    rw [tryCands_cons]
    by_cases hcp : g.can_place v x y
    · rw [if_pos hcp]
      by_cases hre : (re == 1) = true
      · rw [if_pos hre]
        obtain ⟨⟨succ, g2⟩, ho⟩ := hrec1 hre (g.place v x y)
        rw [ho]
        cases succ
        · simp only [Bool.false_eq_true, if_false]
          exact ih (g2.remove v x y)
        · exact ⟨(true, g2.remove v x y), by simp⟩
      · rw [if_neg hre]
        obtain ⟨⟨succ, g2⟩, ho⟩ := hrec2 hre (g.place v x y)
        rw [ho]
        cases succ
        · simp only [Bool.false_eq_true, if_false]
          exact ih (g2.remove v x y)
        · exact ⟨(true, g2.remove v x y), by simp⟩
    · rw [if_neg hcp]
      exact ih g

/-- Fuel sufficiency: with fuel at least the number of remaining piece
instances plus one (one level per placed instance plus the initial call),
the search always produces an answer. -/
theorem can_fit_suff : ∀ (fuel : Nat) (g : Grid) (vl : List (List Shape))
    (P : List (Nat × Nat)) (pi re ne : Nat), PiecesOK P pi re →
    (specOf P pi re).length + 1 ≤ fuel →
    ∃ out, can_fit_presents fuel g vl P pi re ne = some out := by
  intro fuel
  induction fuel with
  | zero =>
    intro g vl P pi re ne hok hf
    omega
  | succ fuel ih =>
    intro g vl P pi re ne hok hf
    rw [can_fit_succ]
    by_cases h1 : P.length ≤ pi
    · rw [if_pos h1]; exact ⟨(true, g), rfl⟩
    · rw [if_neg h1]
      by_cases h2 : g.total_cells - g.filled_cells < ne
      · rw [if_pos h2]; exact ⟨(false, g), rfl⟩
      · rw [if_neg h2]
        have hpi : pi < P.length := by omega
        have hre1 : 1 ≤ re := hok.1 hpi
        apply tryCands_total
        · intro hre g2
          have hre' : re = 1 := by simpa using hre
          subst hre'
          apply ih g2 vl P (pi + 1) (nextRem P pi) _ (PiecesOK_next hok)
          have hs := specOf_step_next (P := P) hpi
          have : (specOf P pi 1).length =
              (specOf P (pi + 1) (nextRem P pi)).length + 1 := by
            rw [hs]; simp
          omega
        · intro hre g2
          have hre2 : 2 ≤ re := by
            have : ¬(re = 1) := by simpa using hre
            omega
          apply ih g2 vl P pi (re - 1) _ (PiecesOK_same hok hre2)
          have hs := specOf_step_same (P := P) hpi hre2
          have : (specOf P pi (re - 1)).length + 1 =
              (specOf P pi re).length := by rw [hs]; simp
          omega

theorem tryCands_frame {rec : Grid → Nat → Nat → Nat → Option (Bool × Grid)}
    (P : List (Nat × Nat)) (pi re ne cp : Nat)
    (hrec : ∀ g2 i r n b gout, WFBits g2 → rec g2 i r n = some (b, gout) →
      gout = g2) :
    ∀ (cands : List (Int × Int × Shape)) (g : Grid), WFBits g →
      ∀ b gout, tryCands rec P pi re ne cp g cands = some (b, gout) →
        gout = g := by
  intro cands
  induction cands with
  | nil =>
    intro g hwf b gout h
    rw [tryCands_nil] at h
    cases h
    rfl
  | cons c rest ih =>
    rcases c with ⟨x, y, v⟩
    intro g hwf b gout h
    rw [tryCands_cons] at h
    by_cases hcp : g.can_place v x y
    · rw [if_pos hcp] at h
      by_cases hre : (re == 1) = true
      · rw [if_pos hre] at h
        cases hres : rec (g.place v x y) (pi + 1) (nextRem P pi) (ne - cp) with
        | none => rw [hres] at h; cases h
        | some r =>
          rcases r with ⟨succ, g2⟩
          rw [hres] at h
          have hg2 : g2 = g.place v x y :=
            hrec _ _ _ _ _ _ (WFBits_place v x y hwf) hres
          subst hg2
          replace h : (if succ = true then
              some (true, (g.place v x y).remove v x y)
            else tryCands rec P pi re ne cp
              ((g.place v x y).remove v x y) rest) = some (b, gout) := h
          rw [place_remove_eq g v x y hwf hcp] at h
          cases succ
          · simp only [Bool.false_eq_true, if_false] at h
            exact ih g hwf b gout h
          · simp only [if_true] at h
            cases h
            rfl
      · rw [if_neg hre] at h
        cases hres : rec (g.place v x y) pi (re - 1) (ne - cp) with
        | none => rw [hres] at h; cases h
        | some r =>
          rcases r with ⟨succ, g2⟩
          rw [hres] at h
          have hg2 : g2 = g.place v x y :=
            hrec _ _ _ _ _ _ (WFBits_place v x y hwf) hres
          subst hg2
          replace h : (if succ = true then
              some (true, (g.place v x y).remove v x y)
            else tryCands rec P pi re ne cp
              ((g.place v x y).remove v x y) rest) = some (b, gout) := h
          rw [place_remove_eq g v x y hwf hcp] at h
          cases succ
          · simp only [Bool.false_eq_true, if_false] at h
            exact ih g hwf b gout h
          · simp only [if_true] at h
            cases h
            rfl
    · rw [if_neg hcp] at h
      exact ih g hwf b gout h

/-- Frame property of the search: when a call returns, the grid it hands
back is exactly the grid it was given. -/
theorem can_fit_frame : ∀ (fuel : Nat) (g : Grid) (vl : List (List Shape))
    (P : List (Nat × Nat)) (pi re ne : Nat) (b : Bool) (gout : Grid),
    WFBits g → can_fit_presents fuel g vl P pi re ne = some (b, gout) →
    gout = g := by
  intro fuel
  induction fuel with
  | zero =>
    intro g vl P pi re ne b gout hwf h
    rw [can_fit_zero] at h
    cases h
  | succ fuel ih =>
    intro g vl P pi re ne b gout hwf h
    rw [can_fit_succ] at h
    by_cases h1 : P.length ≤ pi
    · rw [if_pos h1] at h; cases h; rfl
    · rw [if_neg h1] at h
      by_cases h2 : g.total_cells - g.filled_cells < ne
      · rw [if_pos h2] at h; cases h; rfl
      · rw [if_neg h2] at h
        exact tryCands_frame P pi re ne _
          (fun g2 i r n b2 gout2 hwf2 hh => ih g2 vl P i r n b2 gout2 hwf2 hh)
          _ g hwf b gout h

/-- C4: whenever a `can_fit_presents` call returns (success or failure), the
grid's occupancy bitset and `filled_cells` counter are exactly what they
were when the call was entered. -/
theorem c4_search_restores_grid (fuel : Nat) (g : Grid)
    (vl : List (List Shape)) (P : List (Nat × Nat)) (pi re ne : Nat)
    (b : Bool) (gout : Grid) (hwf : WFBits g)
    (h : can_fit_presents fuel g vl P pi re ne = some (b, gout)) :
    gout.occupied = g.occupied ∧ gout.filled_cells = g.filled_cells := by
  rw [can_fit_frame fuel g vl P pi re ne b gout hwf h]
  exact ⟨rfl, rfl⟩

theorem c4_search_restores_grid_witness :
    ∃ g0 : Grid,
      can_fit_presents 2 (Grid.new 1 1) [[[((0 : Int), (0 : Int))]]]
        [(0, 1)] 0 1 1 = some (true, g0) ∧
      g0.occupied = (Grid.new 1 1).occupied ∧
      g0.filled_cells = (Grid.new 1 1).filled_cells := by
  have h : can_fit_presents 2 (Grid.new 1 1) [[[((0 : Int), (0 : Int))]]]
      [(0, 1)] 0 1 1 = some (true, Grid.new 1 1) := by decide
  exact ⟨Grid.new 1 1, h,
    c4_search_restores_grid 2 (Grid.new 1 1) [[[((0 : Int), (0 : Int))]]]
      [(0, 1)] 0 1 1 true (Grid.new 1 1) (by decide) h⟩

/-- C9: with copy counts positive (as `part_one` guarantees), the search
terminates within a recursion-depth budget of the number of remaining piece
instances plus one for the initial call: that fuel already yields an
answer, and any larger fuel yields the same answer. -/
theorem c9_search_depth_bound (g : Grid) (vl : List (List Shape))
    (P : List (Nat × Nat)) (pi re ne : Nat) (hok : PiecesOK P pi re) :
    ∃ out, can_fit_presents ((specOf P pi re).length + 1) g vl P pi re ne =
        some out ∧
      ∀ fuel, (specOf P pi re).length + 1 ≤ fuel →
        can_fit_presents fuel g vl P pi re ne = some out := by
  obtain ⟨out, h⟩ := can_fit_suff _ g vl P pi re ne hok (le_refl _)
  exact ⟨out, h, fun fuel hf => can_fit_fuel_le hf _ _ _ _ _ _ _ h⟩

theorem c9_search_depth_bound_witness :
    PiecesOK [(0, 2)] 0 2 ∧
    ∃ out, can_fit_presents ((specOf [(0, 2)] 0 2).length + 1) (Grid.new 2 1)
        [[[((0 : Int), (0 : Int))]]] [(0, 2)] 0 2 2 = some out ∧
      ∀ fuel, (specOf [(0, 2)] 0 2).length + 1 ≤ fuel →
        can_fit_presents fuel (Grid.new 2 1) [[[((0 : Int), (0 : Int))]]]
          [(0, 2)] 0 2 2 = some out :=
  ⟨by decide, c9_search_depth_bound (Grid.new 2 1)
    [[[((0 : Int), (0 : Int))]]] [(0, 2)] 0 2 2 (by decide)⟩

/-! ## The per-region pipeline: area pre-check and trivial regions -/

theorem dedup_foldl_ne_nil_headD (f : (Coord → Coord) → Shape) :
    ∀ (ts : List (Coord → Coord)) (acc : List Shape), acc ≠ [] →
      (ts.foldl (fun a t => dedupStep a (f t)) acc) ≠ [] ∧
      (ts.foldl (fun a t => dedupStep a (f t)) acc).headD [] = acc.headD [] := by
  intro ts
  induction ts with
  | nil => intro acc h; exact ⟨h, rfl⟩
  | cons t ts ih =>
    intro acc h
    rw [List.foldl_cons]
    by_cases hm : f t ∈ acc
    · rw [show dedupStep acc (f t) = acc from by simp [dedupStep, hm]]
      exact ih acc h
    · rw [show dedupStep acc (f t) = acc ++ [f t] from by
        simp [dedupStep, hm]]
      have hne : acc ++ [f t] ≠ [] := by simp
      obtain ⟨h1, h2⟩ := ih (acc ++ [f t]) hne
      refine ⟨h1, ?_⟩
      rw [h2]
      cases acc with
      | nil => exact absurd rfl h
      | cons a u => simp

theorem map_self_id (l : List Coord) : (l.map fun c => (c.1, c.2)) = l := by
  have hf : (fun c : Coord => (c.1, c.2)) = id := by
    funext c
    simp
  rw [hf, List.map_id]

theorem rotations_and_flips_headD (p : Present) :
    p.rotations_and_flips.headD [] = normalize p.cells := by
  rw [Present.rotations_and_flips, transformations, List.foldl_cons]
  rw [show dedupStep [] (normalize (p.cells.map fun c => (c.1, c.2))) =
      [normalize (p.cells.map fun c => (c.1, c.2))] from by simp [dedupStep]]
  have h1 := (dedup_foldl_ne_nil_headD (fun t => normalize (p.cells.map t))
    [fun c : Coord => (-c.2, c.1), fun c => (-c.1, -c.2),
     fun c => (c.2, -c.1), fun c => (-c.1, c.2), fun c => (c.2, c.1),
     fun c => (c.1, -c.2), fun c => (-c.2, -c.1)]
    [normalize (p.cells.map fun c => (c.1, c.2))] (by simp)).2
  rw [h1]
  simp only [List.headD_cons]
  rw [map_self_id]

theorem getD_zero_eq_headD (l : List Shape) : l.getD 0 [] = l.headD [] := by
  cases l <;> rfl

theorem cppOf_map_rotations (shapes : List Present) (i : Nat) :
    cppOf (shapes.map Present.rotations_and_flips) i =
      (shapes.getD i (Present.mk [])).cells.length := by
  by_cases hi : i < shapes.length
  · have h1 : (shapes.map Present.rotations_and_flips).getD i [] =
        (shapes[i]).rotations_and_flips := by
      rw [List.getD_eq_getElem?_getD,
        List.getElem?_eq_getElem (by simpa using hi)]
      simp
    have h2 : shapes.getD i (Present.mk []) = shapes[i] := by
      rw [List.getD_eq_getElem?_getD, List.getElem?_eq_getElem hi,
        Option.getD_some]
    rw [cppOf, h1, h2, getD_zero_eq_headD, rotations_and_flips_headD,
      normalize_length]
  · have h1 : (shapes.map Present.rotations_and_flips).getD i [] = [] := by
      rw [List.getD_eq_getElem?_getD,
        List.getElem?_eq_none (by simpa using hi)]
      rfl
    have h2 : shapes.getD i (Present.mk []) = Present.mk [] := by
      rw [List.getD_eq_getElem?_getD, List.getElem?_eq_none (by omega)]
      rfl
    rw [cppOf, h1, h2]
    rfl

theorem sum_map_filter_pos (f : Nat × Nat → Nat)
    (h0 : ∀ p : Nat × Nat, p.2 = 0 → f p = 0) :
    ∀ l : List (Nat × Nat),
      ((l.filter fun p => 0 < p.2).map f).sum = (l.map f).sum := by
  intro l
  induction l with
  | nil => rfl
  | cons p t ih =>
    by_cases hp : 0 < p.2
    · rw [List.filter_cons_of_pos (by simpa using hp)]
      simp only [List.map_cons, List.sum_cons, ih]
    · rw [List.filter_cons_of_neg (by simpa using hp)]
      simp only [List.map_cons, List.sum_cons, ih]
      rw [h0 p (by omega)]
      omega

theorem sortPieces_perm (l : List (Nat × Nat)) : (sortPieces l).Perm l :=
  List.perm_insertionSort _ _

theorem sum_map_sortPieces (f : Nat × Nat → Nat) (l : List (Nat × Nat)) :
    ((sortPieces l).map f).sum = (l.map f).sum :=
  ((sortPieces_perm l).map f).sum_eq

/-- The cell demand computed by `part_one` equals the claim's sum over all
piece types of copies times cell count. -/
theorem needed_eq_claim (shapes : List Present) (required : List Nat) :
    ((sortPieces (required.enum.filter fun p => 0 < p.2)).map fun p =>
      (((shapes.map Present.rotations_and_flips).getD p.1 []).getD 0
        []).length * p.2).sum =
    (required.enum.map fun p =>
      p.2 * (shapes.getD p.1 (Present.mk [])).cells.length).sum := by
  rw [sum_map_sortPieces]
  rw [sum_map_filter_pos _ (fun p hp => by rw [hp, Nat.mul_zero])]
  congr 1
  apply List.map_congr_left
  intro p hp
  have := cppOf_map_rotations shapes p.1
  rw [cppOf] at this
  rw [this, Nat.mul_comm]

theorem region_counted_def (vl : List (List Shape)) (r : Region) :
    region_counted vl r =
      if r.width * r.height <
        ((sortPieces (r.required.enum.filter fun p => 0 < p.2)).map fun p =>
          ((vl.getD p.1 []).getD 0 []).length * p.2).sum then false
      else match can_fit_presents
          (((sortPieces (r.required.enum.filter fun p => 0 < p.2)).map
            fun p => p.2).sum + 1)
          (Grid.new r.width r.height) vl
          (sortPieces (r.required.enum.filter fun p => 0 < p.2)) 0
          ((sortPieces (r.required.enum.filter fun p => 0 < p.2)).headD
            (0, 0)).2
          (((sortPieces (r.required.enum.filter fun p => 0 < p.2)).map
            fun p => ((vl.getD p.1 []).getD 0 []).length * p.2).sum) with
        | some (b, _) => b
        | none => false := rfl

/-- C3: a region whose total cell demand (copies times cell count summed
over all piece types) exceeds its area is rejected by the pre-check, before
the search is entered; `region_counted` short-circuits to `false`. -/
theorem c3_area_precheck_rejects (shapes : List Present) (r : Region)
    (hdemand : r.width * r.height <
      (r.required.enum.map fun p =>
        p.2 * (shapes.getD p.1 (Present.mk [])).cells.length).sum) :
    region_counted (shapes.map Present.rotations_and_flips) r = false := by
  rw [region_counted_def]
  rw [if_pos (by rw [needed_eq_claim shapes r.required]; exact hdemand)]

theorem c3_area_precheck_rejects_witness :
    (2 * 2 < ((Region.mk 2 2 [1, 1]).required.enum.map fun p =>
      p.2 * ([Present.mk [((0 : Int), (0 : Int))],
        Present.mk [((0 : Int), (0 : Int)), (1, 0), (0, 1), (1, 1)]].getD p.1
          (Present.mk [])).cells.length).sum) ∧
    region_counted ([Present.mk [((0 : Int), (0 : Int))],
      Present.mk [((0 : Int), (0 : Int)), (1, 0), (0, 1), (1, 1)]].map
        Present.rotations_and_flips) (Region.mk 2 2 [1, 1]) = false :=
  ⟨by decide, c3_area_precheck_rejects
    [Present.mk [((0 : Int), (0 : Int))],
     Present.mk [((0 : Int), (0 : Int)), (1, 0), (0, 1), (1, 1)]]
    (Region.mk 2 2 [1, 1]) (by decide)⟩

/-- C10: a region whose required-count list is all zeros (or empty) is
always judged feasible, and is counted toward the total of `part_one`. -/
theorem c10_all_zero_region_feasible (shapes : List Present) (w h : Nat)
    (R : List Nat) (rest : List Region) (hz : ∀ c ∈ R, c = 0) :
    region_counted (shapes.map Present.rotations_and_flips)
      (Region.mk w h R) = true ∧
    part_one_core shapes (Region.mk w h R :: rest) =
      part_one_core shapes rest + 1 := by
  have hfilter : (R.enum.filter fun p => 0 < p.2) = [] := by
    rw [List.filter_eq_nil_iff]
    intro p hp
    have h2 : p.2 ∈ R := List.snd_mem_of_mem_enumFrom hp
    have h3 := hz p.2 h2
    simp [h3]
  have hregion : region_counted (shapes.map Present.rotations_and_flips)
      (Region.mk w h R) = true := by
    rw [region_counted_def]
    have hreq : (Region.mk w h R).required = R := rfl
    rw [hreq, hfilter]
    rw [show sortPieces [] = ([] : List (Nat × Nat)) from rfl]
    simp only [List.map_nil, List.sum_nil]
    rw [if_neg (by omega)]
    rw [can_fit_succ]
    rw [if_pos (by simp)]
  refine ⟨hregion, ?_⟩
  rw [part_one_core, part_one_core, List.countP_cons]
  simp [hregion]

theorem c10_all_zero_region_feasible_witness :
    region_counted ([Present.mk [((0 : Int), (0 : Int))]].map
      Present.rotations_and_flips) (Region.mk 3 2 [0]) = true ∧
    part_one_core [Present.mk [((0 : Int), (0 : Int))]]
        [Region.mk 3 2 [0]] =
      part_one_core [Present.mk [((0 : Int), (0 : Int))]] [] + 1 :=
  c10_all_zero_region_feasible [Present.mk [((0 : Int), (0 : Int))]] 3 2 [0]
    [] (by decide)

/-! ## Cells, free-cell counting, and grid accounting -/

theorem mem_allCells (w h : Nat) (c : Nat × Nat) :
    c ∈ allCells w h ↔ c.1 < w ∧ c.2 < h := by
  rcases c with ⟨cx, cy⟩
  simp only [allCells, List.mem_flatMap, List.mem_map, List.mem_range]
  constructor
  · rintro ⟨y, hy, x, hx, he⟩
    cases he
    exact ⟨hx, hy⟩
  · rintro ⟨hx, hy⟩
    exact ⟨cy, hy, cx, hx, rfl⟩

theorem allCells_succ (w h : Nat) :
    allCells w (h + 1) = allCells w h ++ (List.range w).map fun x => (x, h) := by
  rw [allCells, allCells, List.range_succ, List.flatMap_append]
  simp

theorem nodup_allCells (w h : Nat) : (allCells w h).Nodup := by
  induction h with
  | zero => exact List.nodup_nil
  | succ h ih =>
    rw [allCells_succ, List.nodup_append]
    refine ⟨ih, ?_, ?_⟩
    · refine List.Nodup.map ?_ (List.nodup_range w)
      intro a b he
      exact congrArg Prod.fst he
    · intro c hc hc2
      have h1 := (mem_allCells w h c).mp hc
      rcases List.mem_map.mp hc2 with ⟨x, hx, he⟩
      cases he
      simp only [List.mem_range] at hx
      omega

theorem length_allCells (w h : Nat) : (allCells w h).length = w * h := by
  induction h with
  | zero => rfl
  | succ h ih =>
    rw [allCells_succ, List.length_append, ih, List.length_map,
      List.length_range, Nat.mul_succ]

theorem cell_index_inj {w cx cy cx2 cy2 : Nat} (h1 : cx < w) (h2 : cx2 < w)
    (he : cy * w + cx = cy2 * w + cx2) : cx = cx2 ∧ cy = cy2 := by
  have hm : (cy * w + cx) % w = (cy2 * w + cx2) % w := by rw [he]
  rw [Nat.mul_comm cy w, Nat.mul_comm cy2 w, Nat.mul_add_mod, Nat.mul_add_mod,
    Nat.mod_eq_of_lt h1, Nat.mod_eq_of_lt h2] at hm
  subst hm
  refine ⟨rfl, ?_⟩
  have h3 : cy * w = cy2 * w := Nat.add_right_cancel he
  exact Nat.eq_of_mul_eq_mul_right (by omega) h3

theorem cell_lt_total {w h cx cy : Nat} (hx : cx < w) (hy : cy < h) :
    cy * w + cx < w * h := by
  have h1 : cy * w + cx < (cy + 1) * w := by
    rw [Nat.succ_mul]
    omega
  have h2 : (cy + 1) * w ≤ h * w := Nat.mul_le_mul_right w (by omega)
  rw [Nat.mul_comm w h]
  omega

theorem can_place_cell_facts {g : Grid} {v : Shape} {x y : Int}
    (hcp : g.can_place v x y = true) {c : Coord} (hc : c ∈ v) :
    0 ≤ x + c.1 ∧ 0 ≤ y + c.2 ∧ (x + c.1).toNat < g.width ∧
    (y + c.2).toNat < g.height ∧
    g.bit ((y + c.2).toNat * g.width + (x + c.1).toNat) = false := by
  have h := (can_place_iff g v x y).mp hcp c hc
  refine ⟨h.1, h.2.1, by omega, by omega, ?_⟩
  rw [← is_occupied_eq_bit]
  exact h.2.2.2.2

theorem idxList_eq_map_cellsNat (width : Nat) (v : Shape) (x y : Int) :
    idxList width v x y = (cellsNat v x y).map fun c => c.2 * width + c.1 := by
  rw [idxList, cellsNat, List.map_map]
  apply List.map_congr_left
  intro c hc
  rfl

theorem mem_cellsNat_iff_idx {g : Grid} {v : Shape} {x y : Int}
    (hcp : g.can_place v x y = true) {cx cy : Nat} (hcx : cx < g.width) :
    ((cx, cy) ∈ cellsNat v x y ↔ cy * g.width + cx ∈ idxList g.width v x y) := by
  rw [idxList_eq_map_cellsNat]
  constructor
  · intro h
    exact List.mem_map.mpr ⟨(cx, cy), h, rfl⟩
  · intro h
    rcases List.mem_map.mp h with ⟨⟨dx, dy⟩, hd, he⟩
    rcases List.mem_map.mp hd with ⟨c, hc, he2⟩
    have hf := can_place_cell_facts hcp hc
    have hdx : dx < g.width := by
      have : dx = (x + c.1).toNat := congrArg Prod.fst he2.symm
      omega
    have := cell_index_inj hdx hcx he
    have hxx : dx = cx := this.1
    have hyy : dy = cy := this.2
    rw [← hxx, ← hyy]
    exact hd

theorem is_occupied_place {g : Grid} {v : Shape} {x y : Int}
    (hcp : g.can_place v x y = true)
    (hlen : g.total_cells ≤ 64 * g.occupied.length)
    (htot : g.total_cells = g.width * g.height)
    {cx cy : Nat} (hcx : cx < g.width) (hcy : cy < g.height) :
    (g.place v x y).is_occupied cx cy =
      (g.is_occupied cx cy || decide ((cx, cy) ∈ cellsNat v x y)) := by
  have hw : (g.place v x y).width = g.width := place_width g v x y
  rw [is_occupied_eq_bit, is_occupied_eq_bit, hw, place_bit, bit_placeCells]
  have hrange : (cy * g.width + cx) / 64 < g.occupied.length := by
    have h1 : cy * g.width + cx < g.width * g.height := cell_lt_total hcx hcy
    have h2 : cy * g.width + cx < 64 * g.occupied.length := by omega
    omega
  have hmem := @mem_cellsNat_iff_idx g v x y hcp cx cy hcx
  by_cases hm : (cx, cy) ∈ cellsNat v x y
  · have : cy * g.width + cx ∈ idxList g.width v x y := hmem.mp hm
    simp [this, hrange, hm]
  · have : ¬(cy * g.width + cx ∈ idxList g.width v x y) :=
      fun hh => hm (hmem.mpr hh)
    simp [this, hm]

theorem cellsNat_nodup {g : Grid} {v : Shape} {x y : Int}
    (hcp : g.can_place v x y = true) (hnd : v.Nodup) :
    (cellsNat v x y).Nodup := by
  refine List.Nodup.map_on ?_ hnd
  intro c1 hc1 c2 hc2 he
  have h1 := can_place_cell_facts hcp hc1
  have h2 := can_place_cell_facts hcp hc2
  have hx : (x + c1.1).toNat = (x + c2.1).toNat := congrArg Prod.fst he
  have hy : (y + c1.2).toNat = (y + c2.2).toNat := congrArg Prod.snd he
  have e1 : c1.1 = c2.1 := by omega
  have e2 : c1.2 = c2.2 := by omega
  exact Prod.ext e1 e2

theorem cellsNat_subset_free {g : Grid} {v : Shape} {x y : Int}
    (hcp : g.can_place v x y = true) :
    ∀ c ∈ cellsNat v x y,
      c ∈ (allCells g.width g.height).filter
        fun c2 => !(g.is_occupied c2.1 c2.2) := by
  intro c hc
  rcases List.mem_map.mp hc with ⟨d, hd, rfl⟩
  have hf := can_place_cell_facts hcp hd
  rw [List.mem_filter]
  constructor
  · rw [mem_allCells]
    exact ⟨hf.2.2.1, hf.2.2.2.1⟩
  · rw [is_occupied_eq_bit]
    simp [hf.2.2.2.2]

theorem length_filter_mem {l s : List (Nat × Nat)} (hl : l.Nodup)
    (hs : s.Nodup) (hsub : ∀ a ∈ s, a ∈ l) :
    (l.filter fun a => decide (a ∈ s)).length = s.length := by
  have hperm : (l.filter fun a => decide (a ∈ s)).Perm s := by
    rw [List.perm_ext_iff_of_nodup (List.Nodup.filter _ hl) hs]
    intro a
    rw [List.mem_filter]
    constructor
    · rintro ⟨h1, h2⟩
      simpa using h2
    · intro h
      exact ⟨hsub a h, by simpa using h⟩
  exact hperm.length_eq

theorem length_filter_not_mem {l s : List (Nat × Nat)} (hl : l.Nodup)
    (hs : s.Nodup) (hsub : ∀ a ∈ s, a ∈ l) :
    (l.filter fun a => !decide (a ∈ s)).length = l.length - s.length := by
  have hsplit := @List.length_eq_countP_add_countP _
    (fun a : Nat × Nat => decide (a ∈ s)) l
  rw [List.countP_eq_length_filter, List.countP_eq_length_filter] at hsplit
  rw [length_filter_mem hl hs hsub] at hsplit
  have : (l.filter fun a => ¬decide (a ∈ s) = true).length =
      (l.filter fun a => !decide (a ∈ s)).length := by
    apply congrArg
    apply List.filter_congr
    intro a ha
    by_cases h : a ∈ s <;> simp [h]
  omega

theorem freeCount_place {g : Grid} {v : Shape} {x y : Int}
    (hcp : g.can_place v x y = true) (hnd : v.Nodup)
    (hlen : g.total_cells ≤ 64 * g.occupied.length)
    (htot : g.total_cells = g.width * g.height) :
    v.length ≤ freeCount g ∧
    freeCount (g.place v x y) = freeCount g - v.length := by
  have hFnodup : ((allCells g.width g.height).filter
      fun c => !(g.is_occupied c.1 c.2)).Nodup :=
    List.Nodup.filter _ (nodup_allCells _ _)
  have hsub := cellsNat_subset_free hcp
  have hcnd := cellsNat_nodup hcp hnd
  have hclen : (cellsNat v x y).length = v.length := List.length_map v _
  have hle : v.length ≤ freeCount g := by
    rw [freeCount, ← hclen,
      ← length_filter_mem hFnodup hcnd hsub]
    exact List.length_filter_le _ _
  refine ⟨hle, ?_⟩
  have h1 : freeCount (g.place v x y) =
      ((allCells g.width g.height).filter
        fun c => !((g.place v x y).is_occupied c.1 c.2)).length := by
    rw [freeCount, place_width, place_height]
  rw [h1]
  have h2 : (allCells g.width g.height).filter
      (fun c => !((g.place v x y).is_occupied c.1 c.2)) =
      ((allCells g.width g.height).filter
        (fun c => !(g.is_occupied c.1 c.2))).filter
        fun c => !decide (c ∈ cellsNat v x y) := by
    rw [List.filter_filter]
    apply List.filter_congr
    intro c hc
    have hb := (mem_allCells g.width g.height c).mp hc
    rw [is_occupied_place hcp hlen htot hb.1 hb.2]
    rcases c with ⟨cx, cy⟩
    rw [Bool.not_or]
    rw [Bool.and_comm]
  rw [h2, length_filter_not_mem hFnodup hcnd hsub, ← freeCount, hclen]

theorem GInv_place {g : Grid} {v : Shape} {x y : Int} (hg : GInv g)
    (hcp : g.can_place v x y = true) (hnd : v.Nodup) :
    GInv (g.place v x y) := by
  obtain ⟨h1, h2, h3⟩ := hg
  obtain ⟨hle, hfree⟩ := freeCount_place hcp hnd h2 h1
  refine ⟨?_, ?_, ?_⟩
  · rw [place_total, place_width, place_height]; exact h1
  · rw [place_total, place_occupied_length]; exact h2
  · rw [place_total, place_filled, hfree]
    omega

theorem bitLe_refl (g : Grid) : BitLe g g := ⟨rfl, rfl, rfl, fun _ h => h⟩

theorem bitLe_place (g : Grid) (v : Shape) (x y : Int) :
    BitLe g (g.place v x y) := by
  refine ⟨(place_width g v x y).symm, (place_height g v x y).symm,
    (place_occupied_length g v x y).symm, ?_⟩
  intro idx h
  rw [place_bit, bit_placeCells, h]
  rfl

theorem can_place_antitone {g G : Grid} (h : BitLe g G) {v : Shape}
    {x y : Int} (hG : G.can_place v x y = true) :
    g.can_place v x y = true := by
  rw [can_place_iff]
  intro c hc
  have hf := (can_place_iff G v x y).mp hG c hc
  obtain ⟨hw, hh, hl, hbits⟩ := h
  refine ⟨hf.1, hf.2.1, by omega, by omega, ?_⟩
  by_cases ho : g.is_occupied (x + c.1).toNat (y + c.2).toNat = true
  · exfalso
    rw [is_occupied_eq_bit] at ho
    have hGb := hbits _ ho
    rw [hw] at hGb
    rw [is_occupied_eq_bit] at hf
    rw [hf.2.2.2.2] at hGb
    cases hGb
  · simpa using ho

theorem bitLe_place_mono {g G : Grid} (h : BitLe g G) (v : Shape)
    (x y : Int) : BitLe (g.place v x y) (G.place v x y) := by
  obtain ⟨hw, hh, hl, hb⟩ := h
  refine ⟨by rw [place_width, place_width, hw],
    by rw [place_height, place_height, hh],
    by rw [place_occupied_length, place_occupied_length, hl], ?_⟩
  intro idx hidx
  rw [place_bit, bit_placeCells] at hidx
  rw [place_bit, bit_placeCells]
  rw [← hw, ← hl]
  rcases Bool.or_eq_true_iff.mp hidx with h1 | h1
  · rw [hb idx h1]
    rfl
  · rw [h1]
    simp

theorem validPack_mono : ∀ (pk : List (Shape × Int × Int)) {g G : Grid},
    BitLe g G → validPack G pk → validPack g pk := by
  intro pk
  induction pk with
  | nil => intro g G h hp; trivial
  | cons p t ih =>
    rcases p with ⟨v, x, y⟩
    intro g G h hp
    exact ⟨can_place_antitone h hp.1, ih (bitLe_place_mono h v x y) hp.2⟩

/-! ## Pack semantics: commutation and permutation invariance -/

theorem grid_eq_of_bits {a b : Grid} (hwfa : WFBits a) (hwfb : WFBits b)
    (h1 : a.width = b.width) (h2 : a.height = b.height)
    (h3 : a.occupied.length = b.occupied.length)
    (h4 : a.total_cells = b.total_cells)
    (h5 : a.filled_cells = b.filled_cells)
    (hbits : ∀ idx, a.bit idx = b.bit idx) : a = b := by
  refine grid_eq_of_fields h1 h2 ?_ h4 h5
  apply List.ext_getElem h3
  intro n hn1 hn2
  apply Nat.eq_of_testBit_eq
  intro i
  by_cases hi : i < 64
  · have e1 := bit_eq_testBit hn1 i hi
    have e2 := bit_eq_testBit hn2 i hi
    rw [List.getD_eq_getElem?_getD, List.getElem?_eq_getElem hn1,
      Option.getD_some] at e1
    rw [List.getD_eq_getElem?_getD, List.getElem?_eq_getElem hn2,
      Option.getD_some] at e2
    rw [← e1, ← e2, hbits]
  · have b1 : a.occupied[n] < 2 ^ 64 := hwfa _ (List.getElem_mem hn1)
    have b2 : b.occupied[n] < 2 ^ 64 := hwfb _ (List.getElem_mem hn2)
    rw [Nat.testBit_lt_two_pow, Nat.testBit_lt_two_pow]
    · exact Nat.lt_of_lt_of_le b2 (Nat.pow_le_pow_right (by omega) (by omega))
    · exact Nat.lt_of_lt_of_le b1 (Nat.pow_le_pow_right (by omega) (by omega))

theorem place_place_comm {g : Grid} (hwf : WFBits g)
    (v1 : Shape) (x1 y1 : Int) (v2 : Shape) (x2 y2 : Int) :
    (g.place v1 x1 y1).place v2 x2 y2 = (g.place v2 x2 y2).place v1 x1 y1 := by
  have hor : ∀ a b c : Bool, ((a || b) || c) = ((a || c) || b) := by decide
  apply grid_eq_of_bits
  · exact WFBits_place _ _ _ (WFBits_place _ _ _ hwf)
  · exact WFBits_place _ _ _ (WFBits_place _ _ _ hwf)
  · simp
  · simp
  · simp
  · simp
  · simp only [place_filled]
    omega
  · intro idx
    rw [place_bit, bit_placeCells, place_bit, bit_placeCells,
      place_bit, bit_placeCells, place_bit, bit_placeCells]
    simp only [placeCells_fields, place_width, place_occupied_length]
    exact hor _ _ _

theorem validPack_swap {g : Grid} (hwf : WFBits g)
    (hlen : g.total_cells ≤ 64 * g.occupied.length)
    (htot : g.total_cells = g.width * g.height)
    {p q : Shape × Int × Int} {t : List (Shape × Int × Int)}
    (h : validPack g (p :: q :: t)) : validPack g (q :: p :: t) := by
  rcases p with ⟨vp, xp, yp⟩
  rcases q with ⟨vq, xq, yq⟩
  obtain ⟨hp, hq, ht⟩ := h
  have hq' : g.can_place vq xq yq = true :=
    can_place_antitone (bitLe_place g vp xp yp) hq
  have hp' : (g.place vq xq yq).can_place vp xp yp = true := by
    rw [can_place_iff]
    intro c hc
    have hf := can_place_cell_facts hp hc
    have hwq : (g.place vq xq yq).width = g.width := place_width _ _ _ _
    have hhq : (g.place vq xq yq).height = g.height := place_height _ _ _ _
    refine ⟨hf.1, hf.2.1, by rw [hwq]; omega, by rw [hhq]; omega, ?_⟩
    have hnotin : ¬(((xp + c.1).toNat, (yp + c.2).toNat) ∈ cellsNat vq xq yq) := by
      intro hin
      rcases List.mem_map.mp hin with ⟨cq, hcq, he⟩
      have hfq := (can_place_iff _ vq xq yq).mp hq cq hcq
      -- the q-cell is free in (place g vp), but it is a vp-cell, so occupied
      have hocc := hfq.2.2.2.2
      have hwp : (g.place vp xp yp).width = g.width := place_width _ _ _ _
      have hhp : (g.place vp xp yp).height = g.height := place_height _ _ _ _
      have hb1 : (xq + cq.1).toNat < g.width := by
        have h0 := hfq.2.2.1
        rw [hwp] at h0
        omega
      have hb2 : (yq + cq.2).toNat < g.height := by
        have h0 := hfq.2.2.2.1
        rw [hhp] at h0
        omega
      rw [is_occupied_place hp hlen htot hb1 hb2] at hocc
      · have hmem : ((xq + cq.1).toNat, (yq + cq.2).toNat) ∈
            cellsNat vp xp yp := by
          rw [he]
          exact List.mem_map.mpr ⟨c, hc, rfl⟩
        simp [hmem] at hocc
    rw [is_occupied_place hq' hlen htot (by omega) (by omega), Bool.or_eq_false_iff]
    constructor
    · rw [is_occupied_eq_bit]
      exact hf.2.2.2.2
    · simp [hnotin]
  refine ⟨hq', hp', ?_⟩
  rw [place_place_comm hwf vp xp yp vq xq yq] at ht
  exact ht

theorem validPack_perm {pk pk' : List (Shape × Int × Int)} (hperm : pk.Perm pk') :
    ∀ {g : Grid}, WFBits g → GInv g → (∀ p ∈ pk, p.1.Nodup) →
      validPack g pk → validPack g pk' := by
  induction hperm with
  | nil => intro g _ _ _ h; exact h
  | cons p hsub ih =>
    rcases p with ⟨v, x, y⟩
    intro g hwf hg hnd h
    refine ⟨h.1, ih (WFBits_place _ _ _ hwf) (GInv_place hg h.1 ?_) ?_ h.2⟩
    · exact hnd _ (List.mem_cons_self _ _)
    · intro p hp
      exact hnd p (List.mem_cons_of_mem _ hp)
  | swap p q l =>
    intro g hwf hg hnd h
    exact validPack_swap hwf hg.2.1 hg.1 h
  | trans h1 h2 ih1 ih2 =>
    intro g hwf hg hnd h
    refine ih2 hwf hg ?_ (ih1 hwf hg hnd h)
    intro p hp
    exact hnd p (h1.mem_iff.mpr hp)

theorem forall2_right_mem {R : Nat → (Shape × Int × Int) → Prop} :
    ∀ {s : List Nat} {pk : List (Shape × Int × Int)},
      List.Forall₂ R s pk → ∀ p ∈ pk, ∃ a ∈ s, R a p := by
  intro s pk h
  induction h with
  | nil => intro p hp; cases hp
  | cons hr hrest ih =>
    intro p hp
    rcases List.mem_cons.mp hp with rfl | hp
    · exact ⟨_, List.mem_cons_self _ _, hr⟩
    · rcases ih p hp with ⟨a, ha, har⟩
      exact ⟨a, List.mem_cons_of_mem _ ha, har⟩

theorem forall2_perm_exists {R : Nat → (Shape × Int × Int) → Prop} :
    ∀ {s1 s2 : List Nat}, s1.Perm s2 → ∀ {pk : List (Shape × Int × Int)},
      List.Forall₂ R s1 pk → ∃ pk', pk.Perm pk' ∧ List.Forall₂ R s2 pk' := by
  intro s1 s2 hperm
  induction hperm with
  | nil =>
    intro pk h
    cases h
    exact ⟨[], List.Perm.refl [], List.Forall₂.nil⟩
  | cons a hsub ih =>
    intro pk h
    cases h with
    | cons hr hrest =>
      rcases ih hrest with ⟨pk', hp, hf⟩
      exact ⟨_ :: pk', hp.cons _, hf.cons hr⟩
  | swap a b l =>
    intro pk h
    cases h with
    | cons h1 h2 =>
      cases h2 with
      | cons h3 h4 =>
        refine ⟨_, List.Perm.swap _ _ _, ?_⟩
        exact (h4.cons h1).cons h3
  | trans h1 h2 ih1 ih2 =>
    intro pk h
    rcases ih1 h with ⟨pk1, hp1, hf1⟩
    rcases ih2 hf1 with ⟨pk2, hp2, hf2⟩
    exact ⟨pk2, hp1.trans hp2, hf2⟩

theorem Packable_nil (g : Grid) (vl : List (List Shape)) :
    Packable g vl [] := ⟨[], List.Forall₂.nil, trivial⟩

theorem pack_nodup_of_varOK {vl : List (List Shape)} (hvar : VarOK vl)
    {s : List Nat} {pk : List (Shape × Int × Int)}
    (hf : List.Forall₂ (fun s p => p.1 ∈ vl.getD s []) s pk) :
    ∀ p ∈ pk, p.1.Nodup := by
  intro p hp
  rcases forall2_right_mem hf p hp with ⟨a, ha, har⟩
  by_cases hvl : vl.getD a [] ∈ vl.toFinset
  · exact (hvar _ (by simpa using hvl) _ har).1
  · -- the default [] has no members
    by_cases hmem : vl.getD a [] ∈ vl
    · exact (hvar _ hmem _ har).1
    · exfalso
      by_cases hlt : a < vl.length
      · exact hmem (by
          rw [List.getD_eq_getElem?_getD, List.getElem?_eq_getElem hlt,
            Option.getD_some]
          exact List.getElem_mem hlt)
      · rw [List.getD_eq_getElem?_getD, List.getElem?_eq_none (by omega),
          Option.getD_none] at har
        cases har

theorem Packable_perm {vl : List (List Shape)} {s1 s2 : List Nat}
    (hperm : s1.Perm s2) {g : Grid} (hwf : WFBits g) (hg : GInv g)
    (hvar : VarOK vl) (h : Packable g vl s1) : Packable g vl s2 := by
  obtain ⟨pk, hf, hv⟩ := h
  obtain ⟨pk', hp, hf'⟩ := forall2_perm_exists hperm hf
  exact ⟨pk', hf',
    validPack_perm hp hwf hg (pack_nodup_of_varOK hvar hf) hv⟩

theorem Packable_sublist {vl : List (List Shape)} :
    ∀ {s1 s2 : List Nat}, s1.Sublist s2 → ∀ {g : Grid},
      Packable g vl s2 → Packable g vl s1 := by
  intro s1 s2 hsub
  induction hsub with
  | slnil => intro g h; exact Packable_nil g vl
  | cons a hsub ih =>
    intro g h
    obtain ⟨pk, hf, hv⟩ := h
    cases hf with
    | cons hr hrest =>
      refine ih ⟨_, hrest, ?_⟩
      exact validPack_mono _ (bitLe_place g _ _ _) hv.2
  | cons₂ a hsub ih =>
    intro g h
    obtain ⟨pk, hf, hv⟩ := h
    cases hf with
    | cons hr hrest =>
      obtain ⟨pk', hf', hv'⟩ := ih ⟨_, hrest, hv.2⟩
      exact ⟨_ :: pk', hf'.cons hr, hv.1, hv'⟩

theorem Packable_subperm {vl : List (List Shape)} {s1 s2 : List Nat}
    (h : s1.Subperm s2) {g : Grid} (hwf : WFBits g) (hg : GInv g)
    (hvar : VarOK vl) (hp : Packable g vl s2) : Packable g vl s1 := by
  obtain ⟨l, hl1, hl2⟩ := h
  exact Packable_perm hl1 hwf hg hvar (Packable_sublist hl2 hp)

/-! ## Search soundness and completeness -/

theorem candList_variants {h w : Nat} {variants : List Shape} :
    ∀ c ∈ candList h w variants, c.2.2 ∈ variants := by
  intro c hc
  simp only [candList, List.mem_flatMap, List.mem_map, List.mem_range] at hc
  rcases hc with ⟨y, hy, x, hx, v, hv, he⟩
  rw [← he]
  exact hv

theorem mem_candList {h w : Nat} {variants : List Shape} {x y : Int}
    {v : Shape} (hx : 0 ≤ x) (hx2 : x < (w : Int)) (hy : 0 ≤ y)
    (hy2 : y < (h : Int)) (hv : v ∈ variants) :
    (x, y, v) ∈ candList h w variants := by
  simp only [candList, List.mem_flatMap, List.mem_map, List.mem_range]
  refine ⟨y.toNat, by omega, x.toNat, by omega, v, hv, ?_⟩
  have hxx : ((x.toNat : Nat) : Int) = x := Int.toNat_of_nonneg hx
  have hyy : ((y.toNat : Nat) : Int) = y := Int.toNat_of_nonneg hy
  rw [hxx, hyy]

theorem tryCands_sound {rec : Grid → Nat → Nat → Nat → Option (Bool × Grid)}
    (vl : List (List Shape)) (P : List (Nat × Nat)) (pi re ne cp : Nat)
    (variants : List Shape)
    (hframe : ∀ g2 i r n b gout, WFBits g2 → rec g2 i r n = some (b, gout) →
      gout = g2)
    (hsound1 : (re == 1) = true → ∀ g2 gout, WFBits g2 →
      rec g2 (pi + 1) (nextRem P pi) (ne - cp) = some (true, gout) →
      Packable g2 vl (specOf P (pi + 1) (nextRem P pi)))
    (hsound2 : ¬((re == 1) = true) → ∀ g2 gout, WFBits g2 →
      rec g2 pi (re - 1) (ne - cp) = some (true, gout) →
      Packable g2 vl (specOf P pi (re - 1))) :
    ∀ (cands : List (Int × Int × Shape)) (g : Grid) (gout : Grid),
      WFBits g → (∀ c ∈ cands, c.2.2 ∈ variants) →
      tryCands rec P pi re ne cp g cands = some (true, gout) →
      ∃ v x y, v ∈ variants ∧ g.can_place v x y = true ∧
        Packable (g.place v x y) vl
          (if (re == 1) = true then specOf P (pi + 1) (nextRem P pi)
           else specOf P pi (re - 1)) := by
  intro cands
  induction cands with
  | nil =>
    intro g gout hwf hvar h
    rw [tryCands_nil] at h
    cases h
  | cons c rest ih =>
    rcases c with ⟨x, y, v⟩
    intro g gout hwf hvar h
    rw [tryCands_cons] at h
    have hvrest : ∀ c ∈ rest, c.2.2 ∈ variants :=
      fun c hc => hvar c (List.mem_cons_of_mem _ hc)
    by_cases hcp : g.can_place v x y
    · rw [if_pos hcp] at h
      by_cases hre : (re == 1) = true
      · rw [if_pos hre] at h
        cases hres : rec (g.place v x y) (pi + 1) (nextRem P pi) (ne - cp) with
        | none => rw [hres] at h; cases h
        | some r =>
          rcases r with ⟨succ, g2⟩
          rw [hres] at h
          have hg2 : g2 = g.place v x y :=
            hframe _ _ _ _ _ _ (WFBits_place v x y hwf) hres
          subst hg2
          replace h : (if succ = true then
              some (true, (g.place v x y).remove v x y)
            else tryCands rec P pi re ne cp
              ((g.place v x y).remove v x y) rest) = some (true, gout) := h
          rw [place_remove_eq g v x y hwf hcp] at h
          cases succ
          · simp only [Bool.false_eq_true, if_false] at h
            exact ih g gout hwf hvrest h
          · refine ⟨v, x, y, hvar _ (List.mem_cons_self _ _), hcp, ?_⟩
            rw [if_pos hre]
            exact hsound1 hre _ _ (WFBits_place v x y hwf) hres
      · rw [if_neg hre] at h
        cases hres : rec (g.place v x y) pi (re - 1) (ne - cp) with
        | none => rw [hres] at h; cases h
        | some r =>
          rcases r with ⟨succ, g2⟩
          rw [hres] at h
          have hg2 : g2 = g.place v x y :=
            hframe _ _ _ _ _ _ (WFBits_place v x y hwf) hres
          subst hg2
          replace h : (if succ = true then
              some (true, (g.place v x y).remove v x y)
            else tryCands rec P pi re ne cp
              ((g.place v x y).remove v x y) rest) = some (true, gout) := h
          rw [place_remove_eq g v x y hwf hcp] at h
          cases succ
          · simp only [Bool.false_eq_true, if_false] at h
            exact ih g gout hwf hvrest h
          · refine ⟨v, x, y, hvar _ (List.mem_cons_self _ _), hcp, ?_⟩
            rw [if_neg hre]
            exact hsound2 hre _ _ (WFBits_place v x y hwf) hres
    · rw [if_neg hcp] at h
      exact ih g gout hwf hvrest h

/-- Soundness: a successful search implies a semantic packing of the
remaining required instances into the current grid. -/
theorem can_fit_sound : ∀ (fuel : Nat) (g : Grid) (vl : List (List Shape))
    (P : List (Nat × Nat)) (pi re ne : Nat) (gout : Grid),
    WFBits g → PiecesOK P pi re →
    can_fit_presents fuel g vl P pi re ne = some (true, gout) →
    Packable g vl (specOf P pi re) := by
  intro fuel
  induction fuel with
  | zero =>
    intro g vl P pi re ne gout hwf hok h
    rw [can_fit_zero] at h
    cases h
  | succ fuel ih =>
    intro g vl P pi re ne gout hwf hok h
    rw [can_fit_succ] at h
    by_cases h1 : P.length ≤ pi
    · rw [if_pos h1] at h
      rw [specOf_base h1]
      exact Packable_nil g vl
    · rw [if_neg h1] at h
      by_cases h2 : g.total_cells - g.filled_cells < ne
      · rw [if_pos h2] at h
        cases h
      · rw [if_neg h2] at h
        have hpi : pi < P.length := by omega
        have hre1 : 1 ≤ re := hok.1 hpi
        obtain ⟨v, x, y, hv, hcp, hpk⟩ := tryCands_sound vl P pi re _ _ _
          (fun g2 i r n b gout2 hwf2 hh =>
            can_fit_frame fuel g2 vl P i r n b gout2 hwf2 hh)
          (fun hre g2 gout2 hwf2 hh =>
            ih g2 vl P (pi + 1) (nextRem P pi) _ gout2 hwf2
              (PiecesOK_next hok) hh)
          (fun hre g2 gout2 hwf2 hh =>
            ih g2 vl P pi (re - 1) _ gout2 hwf2
              (PiecesOK_same hok (by
                have : ¬(re = 1) := by simpa using hre
                omega)) hh)
          _ g gout hwf candList_variants h
        by_cases hre : (re == 1) = true
        · rw [if_pos hre] at hpk
          have hre' : re = 1 := by simpa using hre
          subst hre'
          rw [specOf_step_next hpi]
          obtain ⟨pk, hf, hvp⟩ := hpk
          exact ⟨(v, x, y) :: pk, hf.cons hv, hcp, hvp⟩
        · rw [if_neg hre] at hpk
          have hre2 : 2 ≤ re := by
            have : ¬(re = 1) := by simpa using hre
            omega
          rw [specOf_step_same hpi hre2]
          obtain ⟨pk, hf, hvp⟩ := hpk
          exact ⟨(v, x, y) :: pk, hf.cons hv, hcp, hvp⟩

theorem varOK_prop {vl : List (List Shape)} (hvar : VarOK vl) {s : Nat}
    {v : Shape} (hv : v ∈ vl.getD s []) :
    v.Nodup ∧ v.length = cppOf vl s ∧
    (∃ c ∈ v, c.1 = 0) ∧ (∃ c ∈ v, c.2 = 0) := by
  by_cases hlt : s < vl.length
  · have hmem : vl.getD s [] ∈ vl := by
      rw [List.getD_eq_getElem?_getD, List.getElem?_eq_getElem hlt,
        Option.getD_some]
      exact List.getElem_mem hlt
    have h := hvar _ hmem _ hv
    exact ⟨h.1, h.2.1, h.2.2⟩
  · exfalso
    rw [List.getD_eq_getElem?_getD, List.getElem?_eq_none (by omega),
      Option.getD_none] at hv
    cases hv

theorem validPack_sum_le_freeCount :
    ∀ (pk : List (Shape × Int × Int)) {g : Grid}, GInv g →
      (∀ p ∈ pk, p.1.Nodup) → validPack g pk →
      (pk.map fun p => p.1.length).sum ≤ freeCount g := by
  intro pk
  induction pk with
  | nil => intro g _ _ _; exact Nat.zero_le _
  | cons p t ih =>
    rcases p with ⟨v, x, y⟩
    intro g hg hnd hv
    obtain ⟨hle, hfree⟩ := freeCount_place hv.1
      (hnd _ (List.mem_cons_self _ _)) hg.2.1 hg.1
    have hrest := ih (GInv_place hg hv.1 (hnd _ (List.mem_cons_self _ _)))
      (fun q hq => hnd q (List.mem_cons_of_mem _ hq)) hv.2
    rw [hfree] at hrest
    simp only [List.map_cons, List.sum_cons]
    omega

theorem specCells_cons (vl : List (List Shape)) (s : Nat) (rest : List Nat) :
    specCells vl (s :: rest) = cppOf vl s + specCells vl rest := by
  simp [specCells]

theorem forall2_sum_length {vl : List (List Shape)} (hvar : VarOK vl) :
    ∀ {spec : List Nat} {pk : List (Shape × Int × Int)},
      List.Forall₂ (fun s p => p.1 ∈ vl.getD s []) spec pk →
      (pk.map fun p => p.1.length).sum = specCells vl spec := by
  intro spec pk h
  induction h with
  | nil => rfl
  | cons hr hrest ih =>
    rw [specCells_cons]
    simp only [List.map_cons, List.sum_cons]
    rw [ih, (varOK_prop hvar hr).2.1]

theorem tryCands_complete {rec : Grid → Nat → Nat → Nat → Option (Bool × Grid)}
    (P : List (Nat × Nat)) (pi re ne cp : Nat) {g : Grid} (hwf : WFBits g)
    (hframe : ∀ g2 i r n b gout, WFBits g2 → rec g2 i r n = some (b, gout) →
      gout = g2)
    (htotal : ∀ v x y, g.can_place v x y = true →
      ∃ o, (if (re == 1) = true then
          rec (g.place v x y) (pi + 1) (nextRem P pi) (ne - cp)
        else rec (g.place v x y) pi (re - 1) (ne - cp)) = some o)
    {v0 : Shape} {x0 y0 : Int} (hcp0 : g.can_place v0 x0 y0 = true)
    (hsucc : ∃ g2, (if (re == 1) = true then
        rec (g.place v0 x0 y0) (pi + 1) (nextRem P pi) (ne - cp)
      else rec (g.place v0 x0 y0) pi (re - 1) (ne - cp)) = some (true, g2)) :
    ∀ (cands : List (Int × Int × Shape)), (x0, y0, v0) ∈ cands →
      tryCands rec P pi re ne cp g cands = some (true, g) := by
  intro cands
  induction cands with
  | nil => intro hmem; cases hmem
  | cons c rest ih =>
    rcases c with ⟨x, y, v⟩
    intro hmem
    rw [tryCands_cons]
    rcases List.mem_cons.mp hmem with he | hmem2
    · -- the head is the known-successful candidate
      obtain ⟨hx, hy, hv⟩ : x0 = x ∧ y0 = y ∧ v0 = v := by
        simpa using he
      subst hx; subst hy; subst hv
      rw [if_pos hcp0]
      obtain ⟨g2, hg2⟩ := hsucc
      by_cases hre : (re == 1) = true
      · rw [if_pos hre] at hg2 ⊢
        rw [hg2]
        have hge : g2 = g.place v0 x0 y0 :=
          hframe _ _ _ _ _ _ (WFBits_place v0 x0 y0 hwf) hg2
        subst hge
        show (if true = true then
            some (true, (g.place v0 x0 y0).remove v0 x0 y0)
          else tryCands rec P pi re ne cp
            ((g.place v0 x0 y0).remove v0 x0 y0) rest) = some (true, g)
        rw [place_remove_eq g v0 x0 y0 hwf hcp0]
        rfl
      · rw [if_neg hre] at hg2 ⊢
        rw [hg2]
        have hge : g2 = g.place v0 x0 y0 :=
          hframe _ _ _ _ _ _ (WFBits_place v0 x0 y0 hwf) hg2
        subst hge
        show (if true = true then
            some (true, (g.place v0 x0 y0).remove v0 x0 y0)
          else tryCands rec P pi re ne cp
            ((g.place v0 x0 y0).remove v0 x0 y0) rest) = some (true, g)
        rw [place_remove_eq g v0 x0 y0 hwf hcp0]
        rfl
    · by_cases hcp : g.can_place v x y
      · rw [if_pos hcp]
        obtain ⟨⟨succ, g2⟩, ho⟩ := htotal v x y hcp
        by_cases hre : (re == 1) = true
        · rw [if_pos hre] at ho
          rw [if_pos hre, ho]
          have hg2 : g2 = g.place v x y :=
            hframe _ _ _ _ _ _ (WFBits_place v x y hwf) ho
          subst hg2
          show (if succ = true then
              some (true, (g.place v x y).remove v x y)
            else tryCands rec P pi re ne cp
              ((g.place v x y).remove v x y) rest) = some (true, g)
          rw [place_remove_eq g v x y hwf hcp]
          cases succ
          · simp only [Bool.false_eq_true, if_false]
            exact ih hmem2
          · rfl
        · rw [if_neg hre] at ho
          rw [if_neg hre, ho]
          have hg2 : g2 = g.place v x y :=
            hframe _ _ _ _ _ _ (WFBits_place v x y hwf) ho
          subst hg2
          show (if succ = true then
              some (true, (g.place v x y).remove v x y)
            else tryCands rec P pi re ne cp
              ((g.place v x y).remove v x y) rest) = some (true, g)
          rw [place_remove_eq g v x y hwf hcp]
          cases succ
          · simp only [Bool.false_eq_true, if_false]
            exact ih hmem2
          · rfl
      · rw [if_neg hcp]
        exact ih hmem2

/-- Completeness: if the remaining required instances admit a semantic
packing into the current grid, the search succeeds (with the exact cell
demand as its pruning argument and any fuel at least the depth bound). -/
theorem can_fit_complete : ∀ (fuel : Nat) (g : Grid) (vl : List (List Shape))
    (P : List (Nat × Nat)) (pi re : Nat),
    WFBits g → GInv g → VarOK vl → PiecesOK P pi re →
    Packable g vl (specOf P pi re) →
    (specOf P pi re).length + 1 ≤ fuel →
    can_fit_presents fuel g vl P pi re (specCells vl (specOf P pi re)) =
      some (true, g) := by
  intro fuel
  induction fuel with
  | zero =>
    intro g vl P pi re hwf hg hvar hok hpack hfuel
    omega
  | succ fuel ih =>
    intro g vl P pi re hwf hg hvar hok hpack hfuel
    rw [can_fit_succ]
    by_cases h1 : P.length ≤ pi
    · rw [if_pos h1]
    · rw [if_neg h1]
      have hpi : pi < P.length := by omega
      have hre1 : 1 ≤ re := hok.1 hpi
      obtain ⟨pk, hf, hv⟩ := hpack
      have hsum : (pk.map fun p => p.1.length).sum =
          specCells vl (specOf P pi re) := forall2_sum_length hvar hf
      have hfree : specCells vl (specOf P pi re) ≤ freeCount g := by
        rw [← hsum]
        exact validPack_sum_le_freeCount pk hg
          (pack_nodup_of_varOK hvar hf) hv
      have hprune : ¬(g.total_cells - g.filled_cells <
          specCells vl (specOf P pi re)) := by
        have h3 := hg.2.2
        omega
      rw [if_neg hprune]
      by_cases hre : (re == 1) = true
      · have hre' : re = 1 := by simpa using hre
        subst hre'
        have hspec : specOf P pi 1 =
            (P.getD pi (0, 0)).1 :: specOf P (pi + 1) (nextRem P pi) :=
          specOf_step_next hpi
        rw [hspec] at hf
        cases hf with
        | cons hr hrest =>
          rename_i p0 pkrest
          rcases p0 with ⟨v0, x0, y0⟩
          have hcp0 : g.can_place v0 x0 y0 = true := hv.1
          have hprops := varOK_prop hvar hr
          obtain ⟨cx, hcx, hcx0⟩ := hprops.2.2.1
          obtain ⟨cy, hcy, hcy0⟩ := hprops.2.2.2
          have hfx := (can_place_iff g v0 x0 y0).mp hcp0 cx hcx
          have hfy := (can_place_iff g v0 x0 y0).mp hcp0 cy hcy
          have hx0 : 0 ≤ x0 := by rw [hcx0] at hfx; simpa using hfx.1
          have hx0w : x0 < (g.width : Int) := by
            have := hfx.2.2.1
            omega
          have hy0 : 0 ≤ y0 := by rw [hcy0] at hfy; simpa using hfy.2.1
          have hy0h : y0 < (g.height : Int) := by
            have := hfy.2.2.2.1
            omega
          have hne : specCells vl (specOf P pi 1) -
              cppOf vl (P.getD pi (0, 0)).1 =
              specCells vl (specOf P (pi + 1) (nextRem P pi)) := by
            rw [hspec, specCells_cons]
            omega
          have hlen2 : (specOf P (pi + 1) (nextRem P pi)).length + 1 ≤ fuel := by
            have : (specOf P pi 1).length =
                (specOf P (pi + 1) (nextRem P pi)).length + 1 := by
              rw [hspec]; simp
            omega
          refine tryCands_complete P pi 1 _ _ hwf
            (fun g2 i r n b gout hwf2 hh =>
              can_fit_frame fuel g2 vl P i r n b gout hwf2 hh)
            ?_ hcp0 ?_ _ ?_
          · intro v x y hcp
            rw [if_pos hre]
            exact can_fit_suff fuel _ vl P (pi + 1) (nextRem P pi) _
              (PiecesOK_next hok) hlen2
          · refine ⟨g.place v0 x0 y0, ?_⟩
            rw [if_pos hre, hne]
            exact ih (g.place v0 x0 y0) vl P (pi + 1) (nextRem P pi)
              (WFBits_place v0 x0 y0 hwf) (GInv_place hg hcp0 hprops.1) hvar
              (PiecesOK_next hok) ⟨pkrest, hrest, hv.2⟩ hlen2
          · exact mem_candList hx0 hx0w hy0 hy0h hr
      · have hre2 : 2 ≤ re := by
          have : ¬(re = 1) := by simpa using hre
          omega
        have hspec : specOf P pi re =
            (P.getD pi (0, 0)).1 :: specOf P pi (re - 1) :=
          specOf_step_same hpi hre2
        rw [hspec] at hf
        cases hf with
        | cons hr hrest =>
          rename_i p0 pkrest
          rcases p0 with ⟨v0, x0, y0⟩
          have hcp0 : g.can_place v0 x0 y0 = true := hv.1
          have hprops := varOK_prop hvar hr
          obtain ⟨cx, hcx, hcx0⟩ := hprops.2.2.1
          obtain ⟨cy, hcy, hcy0⟩ := hprops.2.2.2
          have hfx := (can_place_iff g v0 x0 y0).mp hcp0 cx hcx
          have hfy := (can_place_iff g v0 x0 y0).mp hcp0 cy hcy
          have hx0 : 0 ≤ x0 := by rw [hcx0] at hfx; simpa using hfx.1
          have hx0w : x0 < (g.width : Int) := by
            have := hfx.2.2.1
            omega
          have hy0 : 0 ≤ y0 := by rw [hcy0] at hfy; simpa using hfy.2.1
          have hy0h : y0 < (g.height : Int) := by
            have := hfy.2.2.2.1
            omega
          have hne : specCells vl (specOf P pi re) -
              cppOf vl (P.getD pi (0, 0)).1 =
              specCells vl (specOf P pi (re - 1)) := by
            rw [hspec, specCells_cons]
            omega
          have hlen2 : (specOf P pi (re - 1)).length + 1 ≤ fuel := by
            have : (specOf P pi re).length =
                (specOf P pi (re - 1)).length + 1 := by
              rw [hspec]; simp
            omega
          refine tryCands_complete P pi re _ _ hwf
            (fun g2 i r n b gout hwf2 hh =>
              can_fit_frame fuel g2 vl P i r n b gout hwf2 hh)
            ?_ hcp0 ?_ _ ?_
          · intro v x y hcp
            rw [if_neg hre]
            exact can_fit_suff fuel _ vl P pi (re - 1) _
              (PiecesOK_same hok hre2) hlen2
          · refine ⟨g.place v0 x0 y0, ?_⟩
            rw [if_neg hre, hne]
            exact ih (g.place v0 x0 y0) vl P pi (re - 1)
              (WFBits_place v0 x0 y0 hwf) (GInv_place hg hcp0 hprops.1) hvar
              (PiecesOK_same hok hre2) ⟨pkrest, hrest, hv.2⟩ hlen2
          · exact mem_candList hx0 hx0w hy0 hy0h hr

/-! ## The variant lists of parsed presents satisfy the search hypotheses -/

theorem transformations_inj : ∀ t ∈ transformations,
    ∀ a b : Coord, t a = t b → a = b := by
  intro t ht
  simp only [transformations, List.mem_cons, List.not_mem_nil, or_false] at ht
  rcases ht with rfl | rfl | rfl | rfl | rfl | rfl | rfl | rfl <;>
    (intro a b he
     have h1 := congrArg Prod.fst he
     have h2 := congrArg Prod.snd he
     simp only at h1 h2
     refine Prod.ext ?_ ?_ <;> omega)

theorem normalize_nodup {l : List Coord} (hl : l.Nodup) :
    (normalize l).Nodup := by
  by_cases he : l = []
  · subst he; simp [normalize_nil]
  · refine (normalize_perm l he).nodup_iff.mpr ?_
    refine List.Nodup.map_on ?_ hl
    intro c1 hc1 c2 hc2 hcc
    have h1 := congrArg Prod.fst hcc
    have h2 := congrArg Prod.snd hcc
    simp only at h1 h2
    refine Prod.ext ?_ ?_ <;> omega

theorem normalize_ne_nil {l : List Coord} (hl : l ≠ []) :
    normalize l ≠ [] := by
  intro h
  have := normalize_length l
  rw [h] at this
  simp only [List.length_nil] at this
  exact hl (List.eq_nil_of_length_eq_zero this.symm)

theorem normalize_has_zero_fst {l : List Coord} (hl : l ≠ []) :
    ∃ c ∈ normalize l, c.1 = 0 := by
  have h0 := normalize_min_fst l hl
  have hne : (normalize l).map Prod.fst ≠ [] := by
    simp [normalize_ne_nil hl]
  have hmem := listMin_mem _ hne
  rw [h0] at hmem
  rcases List.mem_map.mp hmem with ⟨c, hc, he⟩
  exact ⟨c, hc, he⟩

theorem normalize_has_zero_snd {l : List Coord} (hl : l ≠ []) :
    ∃ c ∈ normalize l, c.2 = 0 := by
  have h0 := normalize_min_snd l hl
  have hne : (normalize l).map Prod.snd ≠ [] := by
    simp [normalize_ne_nil hl]
  have hmem := listMin_mem _ hne
  rw [h0] at hmem
  rcases List.mem_map.mp hmem with ⟨c, hc, he⟩
  exact ⟨c, hc, he⟩

theorem varOK_of_presents (shapes : List Present)
    (hs : ∀ p ∈ shapes, p.cells ≠ [] ∧ p.cells.Nodup) :
    VarOK (shapes.map Present.rotations_and_flips) := by
  intro L hL v hv
  rcases List.mem_map.mp hL with ⟨p, hp, rfl⟩
  obtain ⟨hne, hnd⟩ := hs p hp
  rcases (rotations_and_flips_mem p v).mp hv with ⟨t, ht, rfl⟩
  have hmapne : p.cells.map t ≠ [] := by simpa using hne
  have hmapnd : (p.cells.map t).Nodup :=
    List.Nodup.map_on (fun a ha b hb he => transformations_inj t ht a b he) hnd
  refine ⟨normalize_nodup hmapnd, ?_, normalize_has_zero_fst hmapne,
    normalize_has_zero_snd hmapne⟩
  rw [getD_zero_eq_headD, rotations_and_flips_headD, normalize_length,
    normalize_length, List.length_map]

/-! ## Facts about the fresh grid and the region piece lists -/

theorem new_getD (w h n : Nat) : (Grid.new w h).occupied.getD n 0 = 0 := by
  show (List.replicate ((w * h + 63) / 64) 0).getD n 0 = 0
  rw [List.getD_eq_getElem?_getD, List.getElem?_replicate]
  by_cases hn : n < (w * h + 63) / 64 <;> simp [hn]

theorem is_occupied_new (w h x y : Nat) :
    (Grid.new w h).is_occupied x y = false := by
  rw [is_occupied_eq_bit, Grid.bit, new_getD]
  exact Nat.zero_testBit _

theorem WFBits_new (w h : Nat) : WFBits (Grid.new w h) := by
  intro word hword
  have : word = 0 := List.eq_of_mem_replicate hword
  subst this
  exact Nat.pos_pow_of_pos 64 (by omega)

theorem freeCount_new (w h : Nat) : freeCount (Grid.new w h) = w * h := by
  have hfi : ((allCells w h).filter fun c =>
      !((Grid.new w h).is_occupied c.1 c.2)) = allCells w h := by
    apply List.filter_eq_self.mpr
    intro c hc
    rw [is_occupied_new]
    rfl
  show ((allCells (Grid.new w h).width (Grid.new w h).height).filter fun c =>
    !((Grid.new w h).is_occupied c.1 c.2)).length = w * h
  have hw : (Grid.new w h).width = w := rfl
  have hh : (Grid.new w h).height = h := rfl
  rw [hw, hh, hfi, length_allCells]

theorem GInv_new (w h : Nat) : GInv (Grid.new w h) := by
  refine ⟨rfl, ?_, ?_⟩
  · show w * h ≤ 64 * (List.replicate ((w * h + 63) / 64) 0).length
    rw [List.length_replicate]
    have := Nat.div_add_mod (w * h + 63) 64
    omega
  · show 0 + freeCount (Grid.new w h) = w * h
    rw [freeCount_new]
    omega

theorem specOf_zero_head (P : List (Nat × Nat)) :
    specOf P 0 ((P.headD (0, 0)).2) = flatSpec P := by
  cases P with
  | nil => rfl
  | cons p rest =>
    rw [specOf, if_neg (by simp), flatSpec_cons]
    rfl

theorem flatSpec_length (P : List (Nat × Nat)) :
    (flatSpec P).length = (P.map fun p => p.2).sum := by
  induction P with
  | nil => rfl
  | cons p rest ih =>
    rw [flatSpec_cons, List.length_append, List.length_replicate, ih]
    simp

theorem specCells_flatSpec (vl : List (List Shape)) (P : List (Nat × Nat)) :
    specCells vl (flatSpec P) =
      (P.map fun p => ((vl.getD p.1 []).getD 0 []).length * p.2).sum := by
  induction P with
  | nil => rfl
  | cons p rest ih =>
    rw [flatSpec_cons]
    show ((List.replicate p.2 p.1 ++ flatSpec rest).map
      fun s => cppOf vl s).sum = _
    rw [List.map_append, List.sum_append, List.map_replicate,
      List.sum_replicate]
    show p.2 * cppOf vl p.1 + specCells vl (flatSpec rest) = _
    rw [ih]
    simp only [List.map_cons, List.sum_cons]
    rw [cppOf, Nat.mul_comm]

theorem piecesOK_of_pos {P : List (Nat × Nat)} (h : ∀ p ∈ P, 1 ≤ p.2) :
    PiecesOK P 0 ((P.headD (0, 0)).2) := by
  refine ⟨?_, fun p hp => h p (List.mem_of_mem_drop hp)⟩
  intro hlen
  cases P with
  | nil => simp at hlen
  | cons p rest => exact h p (List.mem_cons_self _ _)

theorem sortPieces_pos {l : List (Nat × Nat)} :
    ∀ p ∈ sortPieces (l.filter fun q => 0 < q.2), 1 ≤ p.2 := by
  intro p hp
  have hmem : p ∈ l.filter fun q => 0 < q.2 :=
    (sortPieces_perm _).mem_iff.mp hp
  have := List.of_mem_filter hmem
  simpa using this

theorem flatSpec_filter_pos (l : List (Nat × Nat)) :
    flatSpec (l.filter fun q => 0 < q.2) = flatSpec l := by
  induction l with
  | nil => rfl
  | cons p rest ih =>
    by_cases hp : 0 < p.2
    · rw [List.filter_cons_of_pos (by simpa using hp), flatSpec_cons,
        flatSpec_cons, ih]
    · rw [List.filter_cons_of_neg (by simpa using hp), flatSpec_cons, ih]
      have : p.2 = 0 := by omega
      rw [this]
      rfl

theorem flatSpec_sortPieces_perm (l : List (Nat × Nat)) :
    (flatSpec (sortPieces l)).Perm (flatSpec l) :=
  List.Perm.flatMap_right _ (sortPieces_perm l)

theorem flatSpec_enumFrom_sublist :
    ∀ {R2 R : List Nat}, List.Forall₂ (· ≤ ·) R2 R → ∀ n,
      (flatSpec (R2.enumFrom n)).Sublist (flatSpec (R.enumFrom n)) := by
  intro R2 R h
  induction h with
  | nil => intro n; exact List.Sublist.refl _
  | cons hab hrest ih =>
    intro n
    rw [List.enumFrom_cons, List.enumFrom_cons, flatSpec_cons, flatSpec_cons]
    refine List.Sublist.append ?_ (ih (n + 1))
    exact (List.replicate_sublist_replicate _).mpr hab

theorem flatSpec_region_subperm {R2 R : List Nat}
    (h : List.Forall₂ (· ≤ ·) R2 R) :
    (flatSpec (sortPieces (R2.enum.filter fun q => 0 < q.2))).Subperm
      (flatSpec (sortPieces (R.enum.filter fun q => 0 < q.2))) := by
  refine ((flatSpec_sortPieces_perm _).subperm).trans
    (List.Subperm.trans ?_ (flatSpec_sortPieces_perm _).symm.subperm)
  rw [flatSpec_filter_pos, flatSpec_filter_pos]
  exact (flatSpec_enumFrom_sublist h 0).subperm

theorem region_counted_mk (vl : List (List Shape)) (w h : Nat) (R : List Nat) :
    region_counted vl (Region.mk w h R) =
      if w * h < ((sortPieces (R.enum.filter fun p => 0 < p.2)).map fun p =>
          ((vl.getD p.1 []).getD 0 []).length * p.2).sum then false
      else match can_fit_presents
          (((sortPieces (R.enum.filter fun p => 0 < p.2)).map
            fun p => p.2).sum + 1)
          (Grid.new w h) vl (sortPieces (R.enum.filter fun p => 0 < p.2)) 0
          ((sortPieces (R.enum.filter fun p => 0 < p.2)).headD (0, 0)).2
          (((sortPieces (R.enum.filter fun p => 0 < p.2)).map fun p =>
            ((vl.getD p.1 []).getD 0 []).length * p.2).sum) with
        | some (b, _) => b
        | none => false := rfl

/-- C5: feasibility as judged by the per-region pipeline is monotone in the
required counts: if a region is feasible for counts R, it is feasible for
any componentwise-smaller counts R2. -/
theorem c5_feasibility_monotone (shapes : List Present)
    (hs : ∀ p ∈ shapes, p.cells ≠ [] ∧ p.cells.Nodup)
    (w h : Nat) (R R2 : List Nat) (hle : List.Forall₂ (· ≤ ·) R2 R)
    (hfeas : region_counted (shapes.map Present.rotations_and_flips)
      (Region.mk w h R) = true) :
    region_counted (shapes.map Present.rotations_and_flips)
      (Region.mk w h R2) = true := by
  have hvar := varOK_of_presents shapes hs
  rw [region_counted_mk] at hfeas
  rw [region_counted_mk]
  by_cases harea : w * h <
      ((sortPieces (R.enum.filter fun p => 0 < p.2)).map fun p =>
        (((shapes.map Present.rotations_and_flips).getD p.1 []).getD 0
          []).length * p.2).sum
  · rw [if_pos harea] at hfeas
    cases hfeas
  · rw [if_neg harea] at hfeas
    have hok : PiecesOK (sortPieces (R.enum.filter fun p => 0 < p.2)) 0
        (((sortPieces (R.enum.filter fun p => 0 < p.2)).headD (0, 0)).2) :=
      piecesOK_of_pos sortPieces_pos
    have hFlen : (specOf (sortPieces (R.enum.filter fun p => 0 < p.2)) 0
        ((sortPieces (R.enum.filter fun p => 0 < p.2)).headD (0, 0)).2).length
        + 1 ≤ ((sortPieces (R.enum.filter fun p => 0 < p.2)).map
          fun p => p.2).sum + 1 := by
      rw [specOf_zero_head, flatSpec_length]
    obtain ⟨⟨b, gout⟩, hrun⟩ := can_fit_suff
      (((sortPieces (R.enum.filter fun p => 0 < p.2)).map fun p => p.2).sum + 1)
      (Grid.new w h) (shapes.map Present.rotations_and_flips)
      (sortPieces (R.enum.filter fun p => 0 < p.2)) 0
      ((sortPieces (R.enum.filter fun p => 0 < p.2)).headD (0, 0)).2
      (((sortPieces (R.enum.filter fun p => 0 < p.2)).map fun p =>
        (((shapes.map Present.rotations_and_flips).getD p.1 []).getD 0
          []).length * p.2).sum)
      hok hFlen
    rw [hrun] at hfeas
    replace hfeas : b = true := hfeas
    subst hfeas
    have hpack := can_fit_sound _ _ _ _ _ _ _ _ (WFBits_new w h) hok hrun
    rw [specOf_zero_head] at hpack
    have hpack2 : Packable (Grid.new w h)
        (shapes.map Present.rotations_and_flips)
        (flatSpec (sortPieces (R2.enum.filter fun p => 0 < p.2))) :=
      Packable_subperm (flatSpec_region_subperm hle) (WFBits_new w h)
        (GInv_new w h) hvar hpack
    have hsub := flatSpec_region_subperm hle
    have hle2 : specCells (shapes.map Present.rotations_and_flips)
        (flatSpec (sortPieces (R2.enum.filter fun p => 0 < p.2))) ≤
        specCells (shapes.map Present.rotations_and_flips)
        (flatSpec (sortPieces (R.enum.filter fun p => 0 < p.2))) := by
      obtain ⟨l, hl1, hl2⟩ := hsub
      have he1 : specCells (shapes.map Present.rotations_and_flips)
          (flatSpec (sortPieces (R2.enum.filter fun p => 0 < p.2))) =
          specCells (shapes.map Present.rotations_and_flips) l :=
        ((hl1.map _).sum_eq).symm
      rw [he1]
      exact List.Sublist.sum_le_sum (hl2.map _) (fun a _ => Nat.zero_le a)
    have harea2 : ¬(w * h <
        ((sortPieces (R2.enum.filter fun p => 0 < p.2)).map fun p =>
          (((shapes.map Present.rotations_and_flips).getD p.1 []).getD 0
            []).length * p.2).sum) := by
      rw [← specCells_flatSpec] at harea ⊢
      omega
    rw [if_neg harea2]
    have hok2 : PiecesOK (sortPieces (R2.enum.filter fun p => 0 < p.2)) 0
        (((sortPieces (R2.enum.filter fun p => 0 < p.2)).headD (0, 0)).2) :=
      piecesOK_of_pos sortPieces_pos
    have hrun2 := can_fit_complete
      (((sortPieces (R2.enum.filter fun p => 0 < p.2)).map fun p => p.2).sum + 1)
      (Grid.new w h) (shapes.map Present.rotations_and_flips)
      (sortPieces (R2.enum.filter fun p => 0 < p.2)) 0
      ((sortPieces (R2.enum.filter fun p => 0 < p.2)).headD (0, 0)).2
      (WFBits_new w h) (GInv_new w h) hvar hok2
      (by rw [specOf_zero_head]; exact hpack2)
      (by rw [specOf_zero_head, flatSpec_length])
    rw [specOf_zero_head, specCells_flatSpec] at hrun2
    rw [hrun2]

theorem c5_feasibility_monotone_witness :
    (∀ p ∈ [Present.mk [((0 : Int), (0 : Int))]],
      p.cells ≠ [] ∧ p.cells.Nodup) ∧
    List.Forall₂ (· ≤ ·) [0] [1] ∧
    region_counted ([Present.mk [((0 : Int), (0 : Int))]].map
      Present.rotations_and_flips) (Region.mk 1 1 [1]) = true ∧
    region_counted ([Present.mk [((0 : Int), (0 : Int))]].map
      Present.rotations_and_flips) (Region.mk 1 1 [0]) = true := by
  have hf : List.Forall₂ (α := Nat) (β := Nat) (· ≤ ·) [0] [1] :=
    List.Forall₂.cons (by omega) List.Forall₂.nil
  have hr : region_counted ([Present.mk [((0 : Int), (0 : Int))]].map
      Present.rotations_and_flips) (Region.mk 1 1 [1]) = true := by decide
  exact ⟨by decide, hf, hr,
    c5_feasibility_monotone [Present.mk [((0 : Int), (0 : Int))]] (by decide)
      1 1 [1] [0] hf hr⟩

/-! ## Reachable grid states: rebuild characterization -/

theorem placeAll_nil (g : Grid) : placeAll g [] = g := rfl

theorem placeAll_cons (g : Grid) (p : Shape × Int × Int)
    (pk : List (Shape × Int × Int)) :
    placeAll g (p :: pk) = placeAll (g.place p.1 p.2.1 p.2.2) pk := rfl

theorem placeAll_snoc (g : Grid) (pk : List (Shape × Int × Int))
    (p : Shape × Int × Int) :
    placeAll g (pk ++ [p]) = (placeAll g pk).place p.1 p.2.1 p.2.2 := by
  rw [placeAll, List.foldl_append]
  rfl

theorem WFBits_placeAll : ∀ (pk : List (Shape × Int × Int)) {g : Grid},
    WFBits g → WFBits (placeAll g pk) := by
  intro pk
  induction pk with
  | nil => intro g h; exact h
  | cons p t ih =>
    intro g h
    rw [placeAll_cons]
    exact ih (WFBits_place _ _ _ h)

theorem validPack_snoc : ∀ (pk : List (Shape × Int × Int)) {g : Grid}
    {v : Shape} {x y : Int}, validPack g pk →
    (placeAll g pk).can_place v x y = true →
    validPack g (pk ++ [(v, x, y)]) := by
  intro pk
  induction pk with
  | nil =>
    intro g v x y hv hcp
    exact ⟨hcp, trivial⟩
  | cons p t ih =>
    rcases p with ⟨v2, x2, y2⟩
    intro g v x y hv hcp
    exact ⟨hv.1, ih hv.2 hcp⟩

theorem validPack_snoc_inv : ∀ (pk : List (Shape × Int × Int)) {g : Grid}
    {v : Shape} {x y : Int}, validPack g (pk ++ [(v, x, y)]) →
    validPack g pk ∧ (placeAll g pk).can_place v x y = true := by
  intro pk
  induction pk with
  | nil =>
    intro g v x y hv
    exact ⟨trivial, hv.1⟩
  | cons p t ih =>
    rcases p with ⟨v2, x2, y2⟩
    intro g v x y hv
    obtain ⟨h1, h2⟩ := ih hv.2
    exact ⟨⟨hv.1, h1⟩, h2⟩

theorem reachSt_rebuild {w h : Nat} {g : Grid}
    {st : List (Shape × Int × Int)} (hr : ReachSt w h g st) :
    g = placeAll (Grid.new w h) st.reverse ∧
    validPack (Grid.new w h) st.reverse ∧ ∀ p ∈ st, p.1.Nodup := by
  induction hr with
  | base => exact ⟨rfl, trivial, fun p hp => absurd hp (List.not_mem_nil p)⟩
  | place_step g st v x y hr hnd hcp ih =>
    obtain ⟨he, hv, hn⟩ := ih
    have hcp2 : (placeAll (Grid.new w h) st.reverse).can_place v x y = true := by
      rw [← he]
      exact hcp
    refine ⟨?_, ?_, ?_⟩
    · rw [List.reverse_cons, placeAll_snoc, ← he]
    · rw [List.reverse_cons]
      exact validPack_snoc _ hv hcp2
    · intro p hp
      rcases List.mem_cons.mp hp with rfl | hp
      · exact hnd
      · exact hn p hp
  | remove_step g st v x y hr ih =>
    obtain ⟨he, hv, hn⟩ := ih
    rw [List.reverse_cons] at he hv
    obtain ⟨hv1, hcp⟩ := validPack_snoc_inv _ hv
    have hwf : WFBits (placeAll (Grid.new w h) st.reverse) :=
      WFBits_placeAll _ (WFBits_new w h)
    refine ⟨?_, hv1, fun p hp => hn p (List.mem_cons_of_mem _ hp)⟩
    rw [he, placeAll_snoc]
    exact place_remove_eq _ v x y hwf hcp

/-! ## Population-count accounting for the occupancy bitset -/

theorem sum_map_set (f : Nat → Nat) : ∀ (l : List Nat) (j x : Nat),
    j < l.length →
    ((l.set j x).map f).sum + f (l.getD j 0) = (l.map f).sum + f x := by
  intro l
  induction l with
  | nil => intro j x hj; simp at hj
  | cons a t ih =>
    intro j x hj
    cases j with
    | zero =>
      simp only [List.set_cons_zero, List.map_cons, List.sum_cons,
        List.getD_cons_zero]
      omega
    | succ n =>
      have hn : n < t.length := by simpa using hj
      have h2 := ih n x hn
      simp only [List.set_cons_succ, List.map_cons, List.sum_cons,
        List.getD_cons_succ]
      omega

theorem countP_or_mem (p : Nat → Bool) (b : Nat) :
    ∀ l : List Nat, l.Nodup → b ∈ l → p b = false →
    (l.countP fun i => p i || decide (i = b)) = l.countP p + 1 := by
  intro l
  induction l with
  | nil => intro _ hb _; simp at hb
  | cons a t ih =>
    intro hnd hb hp
    by_cases hab : a = b
    · subst hab
      have hnt : a ∉ t := (List.nodup_cons.mp hnd).1
      have ht : (t.countP fun i => p i || decide (i = a)) = t.countP p := by
        apply List.countP_congr
        intro i hi
        have hne : ¬(i = a) := fun e => hnt (e ▸ hi)
        simp [hne]
      simp [List.countP_cons, ht, hp]
    · have hbt : b ∈ t := by
        rcases List.mem_cons.mp hb with h | h
        · exact absurd h.symm hab
        · exact h
      have ht := ih (List.nodup_cons.mp hnd).2 hbt hp
      cases hpa : p a <;> simp [List.countP_cons, hpa, hab, ht]

theorem wordPopCount_or (w b : Nat) (hb : b < 64) (hw : w.testBit b = false) :
    wordPopCount (w ||| (1 <<< b)) = wordPopCount w + 1 := by
  rw [wordPopCount, wordPopCount]
  have h1 : ((List.range 64).countP fun i => (w ||| (1 <<< b)).testBit i) =
      (List.range 64).countP fun i => w.testBit i || decide (i = b) := by
    apply List.countP_congr
    intro i _
    rw [testBit_or_pow]
  rw [h1]
  exact countP_or_mem _ b (List.range 64) (List.nodup_range 64)
    (List.mem_range.mpr hb) hw

theorem bitsetPopcount_set_true (g : Grid) (x y : Nat)
    (hb : g.bit (y * g.width + x) = false)
    (hr : (y * g.width + x) / 64 < g.occupied.length) :
    bitsetPopcount (g.set_cell x y true) = bitsetPopcount g + 1 := by
  have hocc : (g.set_cell x y true).occupied =
      g.occupied.set ((y * g.width + x) / 64)
        ((g.occupied.getD ((y * g.width + x) / 64) 0) |||
          (1 <<< ((y * g.width + x) % 64))) := by
    simp [Grid.set_cell]
  simp only [Grid.bit] at hb
  simp only [bitsetPopcount, hocc]
  have hs := sum_map_set wordPopCount g.occupied ((y * g.width + x) / 64)
    ((g.occupied.getD ((y * g.width + x) / 64) 0) |||
      (1 <<< ((y * g.width + x) % 64))) hr
  have hw : wordPopCount ((g.occupied.getD ((y * g.width + x) / 64) 0) |||
      (1 <<< ((y * g.width + x) % 64))) =
      wordPopCount (g.occupied.getD ((y * g.width + x) / 64) 0) + 1 :=
    wordPopCount_or _ _ (Nat.mod_lt _ (by omega)) hb
  rw [hw] at hs
  omega

theorem idxList_nodup {g : Grid} {v : Shape} {x y : Int}
    (hcp : g.can_place v x y = true) (hnd : v.Nodup) :
    (idxList g.width v x y).Nodup := by
  rw [idxList_eq_map_cellsNat]
  refine List.Nodup.map_on ?_ (cellsNat_nodup hcp hnd)
  intro c1 hc1 c2 hc2 he
  rcases List.mem_map.mp hc1 with ⟨d1, hd1, he1⟩
  rcases List.mem_map.mp hc2 with ⟨d2, hd2, he2⟩
  have hf1 := can_place_cell_facts hcp hd1
  have hf2 := can_place_cell_facts hcp hd2
  have hb1 : c1.1 < g.width := by
    have : c1.1 = (x + d1.1).toNat := congrArg Prod.fst he1.symm
    omega
  have hb2 : c2.1 < g.width := by
    have : c2.1 = (x + d2.1).toNat := congrArg Prod.fst he2.symm
    omega
  have h3 := cell_index_inj hb1 hb2 he
  exact Prod.ext h3.1 h3.2

theorem idxList_fresh_range {g : Grid} {v : Shape} {x y : Int}
    (hcp : g.can_place v x y = true)
    (hlen : g.total_cells ≤ 64 * g.occupied.length)
    (htot : g.total_cells = g.width * g.height) :
    ∀ idx ∈ idxList g.width v x y,
      g.bit idx = false ∧ idx / 64 < g.occupied.length := by
  intro idx hidx
  rw [idxList] at hidx
  rcases List.mem_map.mp hidx with ⟨c, hc, rfl⟩
  have hf := can_place_cell_facts hcp hc
  refine ⟨hf.2.2.2.2, ?_⟩
  have h1 := cell_lt_total hf.2.2.1 hf.2.2.2.1
  omega

theorem bitsetPopcount_placeCells (x y : Int) : ∀ (v : Shape) (g : Grid),
    (idxList g.width v x y).Nodup →
    (∀ idx ∈ idxList g.width v x y, g.bit idx = false ∧
      idx / 64 < g.occupied.length) →
    bitsetPopcount (g.placeCells v x y) = bitsetPopcount g + v.length := by
  intro v
  induction v with
  | nil => intro g _ _; rw [placeCells_nil]; rfl
  | cons c t ih =>
    intro g hnd hfr
    rw [placeCells_cons]
    have hhead := hfr ((y + c.2).toNat * g.width + (x + c.1).toNat)
      (by rw [idxList_cons]; exact List.mem_cons_self _ _)
    have h1 : bitsetPopcount (g.set_cell (x + c.1).toNat (y + c.2).toNat true) =
        bitsetPopcount g + 1 :=
      bitsetPopcount_set_true g _ _ hhead.1 hhead.2
    set g2 := g.set_cell (x + c.1).toNat (y + c.2).toNat true with hg2
    have hw2 : g2.width = g.width := set_cell_width g _ _ true
    have htl : idxList g2.width t x y = idxList g.width t x y := by rw [hw2]
    rw [idxList_cons] at hnd
    have hnd2 : (idxList g2.width t x y).Nodup := by
      rw [htl]
      exact (List.nodup_cons.mp hnd).2
    have hfr2 : ∀ idx ∈ idxList g2.width t x y,
        g2.bit idx = false ∧ idx / 64 < g2.occupied.length := by
      rw [htl]
      intro idx hidx
      have hne : idx ≠ (y + c.2).toNat * g.width + (x + c.1).toNat := by
        intro he
        exact (List.nodup_cons.mp hnd).1 (he ▸ hidx)
      have horig := hfr idx (by
        rw [idxList_cons]
        exact List.mem_cons_of_mem _ hidx)
      constructor
      · rw [hg2, bit_set_cell]
        rw [if_neg (fun hcond :
          ((y + c.2).toNat * g.width + (x + c.1).toNat) / 64 <
              g.occupied.length ∧
            idx = (y + c.2).toNat * g.width + (x + c.1).toNat =>
          hne hcond.2)]
        exact horig.1
      · rw [hg2, set_cell_occupied_length]
        exact horig.2
    rw [ih g2 hnd2 hfr2, h1, List.length_cons]
    omega

theorem covers_iff_mem_cellsNat {g : Grid} {v : Shape} {x y : Int}
    (hcp : g.can_place v x y = true) (cx cy : Nat) :
    (covers (v, x, y) cx cy ↔ (cx, cy) ∈ cellsNat v x y) := by
  have hdef : covers (v, x, y) cx cy ↔
      ∃ c ∈ v, x + c.1 = (cx : Int) ∧ y + c.2 = (cy : Int) := Iff.rfl
  rw [hdef]
  constructor
  · rintro ⟨c, hc, h1, h2⟩
    refine List.mem_map.mpr ⟨c, hc, ?_⟩
    have hf := can_place_cell_facts hcp hc
    have e1 : (x + c.1).toNat = cx := by omega
    have e2 : (y + c.2).toNat = cy := by omega
    rw [e1, e2]
  · intro hm
    rcases List.mem_map.mp hm with ⟨c, hc, he⟩
    have hf := can_place_cell_facts hcp hc
    have e1 : (x + c.1).toNat = cx := congrArg Prod.fst he
    have e2 : (y + c.2).toNat = cy := congrArg Prod.snd he
    exact ⟨c, hc, by omega, by omega⟩

theorem placeAll_invariant : ∀ (pk : List (Shape × Int × Int)) (g : Grid),
    validPack g pk → (∀ p ∈ pk, p.1.Nodup) → GInv g →
    (placeAll g pk).width = g.width ∧
    (placeAll g pk).height = g.height ∧
    (placeAll g pk).total_cells = g.total_cells ∧
    GInv (placeAll g pk) ∧
    bitsetPopcount (placeAll g pk) =
      bitsetPopcount g + (pk.map fun p => p.1.length).sum ∧
    (placeAll g pk).filled_cells =
      g.filled_cells + (pk.map fun p => p.1.length).sum ∧
    ∀ cx cy : Nat, cx < g.width → cy < g.height →
      ((placeAll g pk).is_occupied cx cy = true ↔
        g.is_occupied cx cy = true ∨ ∃ p ∈ pk, covers p cx cy) := by
  intro pk
  induction pk with
  | nil =>
    intro g _ _ hg
    rw [placeAll_nil]
    refine ⟨rfl, rfl, rfl, hg, by simp, by simp, ?_⟩
    intro cx cy _ _
    simp
  | cons p t ih =>
    rcases p with ⟨v, x, y⟩
    intro g hv hnd hg
    obtain ⟨hcp, hvt⟩ := hv
    have hvnd : v.Nodup := hnd (v, x, y) (List.mem_cons_self _ _)
    have hndt : ∀ q ∈ t, q.1.Nodup := fun q hq =>
      hnd q (List.mem_cons_of_mem _ hq)
    have hg2 : GInv (g.place v x y) := GInv_place hg hcp hvnd
    rw [placeAll_cons]
    obtain ⟨i1, i2, i3, i4, i5, i6, i7⟩ := ih (g.place v x y) hvt hndt hg2
    have hpw : (g.place v x y).width = g.width := place_width g v x y
    have hph : (g.place v x y).height = g.height := place_height g v x y
    have hfr := idxList_fresh_range hcp hg.2.1 hg.1
    have hpnd := idxList_nodup hcp hvnd
    have hpc1 : bitsetPopcount (g.place v x y) =
        bitsetPopcount g + v.length := by
      have he : bitsetPopcount (g.place v x y) =
          bitsetPopcount (g.placeCells v x y) := rfl
      rw [he, bitsetPopcount_placeCells x y v g hpnd hfr]
    refine ⟨by rw [i1, hpw], by rw [i2, hph], by rw [i3, place_total], i4,
      ?_, ?_, ?_⟩
    · rw [i5, hpc1, List.map_cons, List.sum_cons]
      show bitsetPopcount g + v.length + (t.map fun p => p.1.length).sum =
        bitsetPopcount g + (v.length + (t.map fun p => p.1.length).sum)
      omega
    · rw [i6, place_filled, List.map_cons, List.sum_cons]
      show g.filled_cells + v.length + (t.map fun p => p.1.length).sum =
        g.filled_cells + (v.length + (t.map fun p => p.1.length).sum)
      omega
    · intro cx cy hcx hcy
      have h7 := i7 cx cy (by rw [hpw]; exact hcx) (by rw [hph]; exact hcy)
      rw [h7, is_occupied_place hcp hg.2.1 hg.1 hcx hcy]
      have hmc := covers_iff_mem_cellsNat hcp cx cy
      constructor
      · intro hh
        rcases hh with hocc | hex
        · rcases (by simpa using hocc :
            g.is_occupied cx cy = true ∨ (cx, cy) ∈ cellsNat v x y) with
              h1 | h1
          · exact Or.inl h1
          · exact Or.inr ⟨(v, x, y), List.mem_cons_self _ _, hmc.mpr h1⟩
        · rcases hex with ⟨q, hq, hcov⟩
          exact Or.inr ⟨q, List.mem_cons_of_mem _ hq, hcov⟩
      · intro hh
        rcases hh with hocc | ⟨q, hq, hcov⟩
        · exact Or.inl (by simp [hocc])
        · rcases List.mem_cons.mp hq with rfl | hq2
          · exact Or.inl (by simp [hmc.mp hcov])
          · exact Or.inr ⟨q, hq2, hcov⟩

theorem wordPopCount_zero : wordPopCount 0 = 0 := rfl

theorem bitsetPopcount_new (w h : Nat) : bitsetPopcount (Grid.new w h) = 0 := by
  simp [bitsetPopcount, Grid.new, wordPopCount_zero]

/-- C7: the grid invariant holds in every state reachable from
`Grid::new(width, height)` by precondition-respecting `place`/`remove`
calls: `total_cells` stays equal to `width*height`, `filled_cells` equals
the population count of the occupancy bitset, and a bit is set iff some
currently-placed shape instance covers that cell. -/
theorem c7_grid_invariant (w h : Nat) (g : Grid)
    (st : List (Shape × Int × Int)) (hr : ReachSt w h g st) :
    g.total_cells = w * h ∧
    g.filled_cells = bitsetPopcount g ∧
    ∀ x y : Nat, x < w → y < h →
      (g.is_occupied x y = true ↔ ∃ p ∈ st, covers p x y) := by
  obtain ⟨he, hv, hnd⟩ := reachSt_rebuild hr
  have hnd2 : ∀ p ∈ st.reverse, p.1.Nodup := fun p hp =>
    hnd p (List.mem_reverse.mp hp)
  obtain ⟨i1, i2, i3, i4, i5, i6, i7⟩ :=
    placeAll_invariant st.reverse (Grid.new w h) hv hnd2 (GInv_new w h)
  have hneww : (Grid.new w h).width = w := rfl
  have hnewh : (Grid.new w h).height = h := rfl
  refine ⟨?_, ?_, ?_⟩
  · rw [he, i3]
    rfl
  · rw [he, i6, i5, bitsetPopcount_new]
    rfl
  · intro x y hx hy
    have h7 := i7 x y (by rw [hneww]; exact hx) (by rw [hnewh]; exact hy)
    rw [he, h7]
    simp [is_occupied_new, List.mem_reverse]

theorem c7_grid_invariant_witness :
    ((Grid.new 2 2).place [((0 : Int), (0 : Int))] 0 0).total_cells = 2 * 2 ∧
    ((Grid.new 2 2).place [((0 : Int), (0 : Int))] 0 0).filled_cells =
      bitsetPopcount ((Grid.new 2 2).place [((0 : Int), (0 : Int))] 0 0) ∧
    (((Grid.new 2 2).place [((0 : Int), (0 : Int))] 0 0).is_occupied 0 0 =
        true ↔
      ∃ p ∈ [([((0 : Int), (0 : Int))], (0 : Int), (0 : Int))],
        covers p 0 0) := by
  have hinv := c7_grid_invariant 2 2
    ((Grid.new 2 2).place [((0 : Int), (0 : Int))] 0 0)
    [([((0 : Int), (0 : Int))], (0 : Int), (0 : Int))]
    (ReachSt.place_step (Grid.new 2 2) [] [((0 : Int), (0 : Int))] 0 0
      ReachSt.base (by decide) (by decide))
  exact ⟨hinv.1, hinv.2.1, hinv.2.2 0 0 (by decide) (by decide)⟩
